import Mathlib

/-!
Verification of the painterly texture-map generator (tools/brush_final.py).

The development shallowly embeds the pipeline of
`create_painterly_maps_with_shared_texture` and its helpers:
buffer initialization, the texture sampler, the stroke compositor
(`draw_brush_stroke_in_region`), the triangle rasterizer
(`get_barycentric_coords`, `is_point_in_triangle_float`, `lines_intersect`
and the per-triangle pixel loop), the union-find region segmenter, and the
per-region stroke planner.  Machine floats are modelled by exact rationals
(where the code only does field arithmetic and comparisons) and by real
numbers (where the code calls sqrt/trig); Python `int()` truncation is
modelled explicitly.
-/

namespace Painterly

/-- An RGBA pixel value (numpy float32 4-vector). -/
abbrev Vec4 : Type := ℝ × ℝ × ℝ × ℝ

/-- A 2-component rational vector (UV coordinates). -/
abbrev Q2 : Type := ℚ × ℚ

/-- A 3-component rational vector (face normals, points). -/
abbrev Q3 : Type := ℚ × ℚ × ℚ

/-- Python `int()` truncation toward zero, on rationals. -/
def pyInt (q : ℚ) : ℤ := if 0 ≤ q then ⌊q⌋ else ⌈q⌉

/-- Python `int()` truncation toward zero, on reals. -/
noncomputable def pyIntR (x : ℝ) : ℤ := if 0 ≤ x then ⌊x⌋ else ⌈x⌉

/-- Initial content of `normal_array` (lines 39-43): packed flat +Z normal
`(0.5, 0.5, 1.0)` with alpha `1.0` at every pixel. -/
noncomputable def normalArrayInit : ℤ → ℤ → Vec4 := fun _ _ => (1/2, 1/2, 1, 1)

/-- Initial content of `color_array` (line 45): `np.ones` gives opaque white
`(1, 1, 1, 1)` at every pixel. -/
noncomputable def colorArrayInit : ℤ → ℤ → Vec4 := fun _ _ => (1, 1, 1, 1)

/-- The neutral gray fallback color `(0.5, 0.5, 0.5)` used by the texture
sampler (line 608) and as `default_color` (line 59). -/
noncomputable def neutralGray : ℝ × ℝ × ℝ := (1/2, 1/2, 1/2)

/-- `sample_cached_texture` (lines 595-608): point-sample the cached texture
array at `(int(u*width), int(v*height))`, clamped into the valid index range;
neutral gray on any access failure. -/
noncomputable def sample_cached_texture (tex : List (List Vec4)) (w h : ℕ) (u v : ℚ) :
    ℝ × ℝ × ℝ :=
  let x : ℤ := max 0 (min ((w : ℤ) - 1) (pyInt (u * w)))
  let y : ℤ := max 0 (min ((h : ℤ) - 1) (pyInt (v * h)))
  match (tex.get? y.toNat).bind (fun row => row.get? x.toNat) with
  | some px => (px.1, px.2.1, px.2.2.1)
  | none => neutralGray

/-- The tapered thickness of a stroke at step fraction `t` (lines 738-739):
`max(1, int(thickness * (1.0 - 0.5 * (2*t - 1)**2)))`. -/
noncomputable def local_thickness (thickness : ℤ) (t : ℝ) : ℤ :=
  max 1 (pyIntR ((thickness : ℝ) * (1 - 1/2 * (2*t - 1)^2)))

/-- The half-extent of the square brush neighborhood (line 742):
`local_thickness // 2`. -/
noncomputable def brushHalfT (thickness : ℤ) (t : ℝ) : ℤ :=
  local_thickness thickness t / 2

/-- Alpha blending of one pixel (lines 757-761): each RGB channel becomes
`old*(1-opacity) + color*opacity`, and alpha is forced to `1.0`. -/
noncomputable def blendPixel (old : Vec4) (color : Vec4) (opacity : ℝ) : Vec4 :=
  (old.1 * (1 - opacity) + color.1 * opacity,
   old.2.1 * (1 - opacity) + color.2.1 * opacity,
   old.2.2.1 * (1 - opacity) + color.2.2.1 * opacity,
   1)

/-- The masked numpy-slice update (lines 748-761): inside the box
`[mnx, mxx] × [mny, mxy]`, every pixel whose stored region id equals
`rid` is alpha-blended with `color`; all other pixels are untouched. -/
noncomputable def blendBox (buf : ℤ → ℤ → Vec4) (rdata : ℤ → ℤ → ℤ) (rid : ℤ)
    (color : Vec4) (opacity : ℝ) (mnx mxx mny mxy : ℤ) : ℤ → ℤ → Vec4 :=
  fun yy xx =>
    if mny ≤ yy ∧ yy ≤ mxy ∧ mnx ≤ xx ∧ xx ≤ mxx ∧ rdata yy xx = rid
    then blendPixel (buf yy xx) color opacity
    else buf yy xx

/-- One iteration body of the Bresenham trace (lines 732-761): if the traced
point is in bounds and owned by the target region, stamp the tapered square
brush (clamped to the buffer) around it. -/
noncomputable def strokeStep (buf : ℤ → ℤ → Vec4) (rdata : ℤ → ℤ → ℤ)
    (rid : ℤ) (color : Vec4) (opacity : ℝ) (thickness R : ℤ)
    (x y : ℤ) (step : ℕ) (L : ℝ) : ℤ → ℤ → Vec4 :=
  if 0 ≤ y ∧ y < R ∧ 0 ≤ x ∧ x < R ∧ rdata y x = rid then
    let t : ℝ := (step : ℝ) / L
    let ht := brushHalfT thickness t
    blendBox buf rdata rid color opacity
      (max 0 (x - ht)) (min (R - 1) (x + ht))
      (max 0 (y - ht)) (min (R - 1) (y + ht))
  else buf

/-- The fueled Bresenham loop of `draw_brush_stroke_in_region`
(lines 731-776).  The loop advances `x` toward `x1` when `2*err > -dy` and
`y` toward `y1` when `2*err < dx`, exiting at `(x1, y1)`; the fuel passed by
the wrapper strictly exceeds the `max(dx, dy)` iterations the trace takes. -/
noncomputable def strokeLoop (fuel : ℕ) (buf : ℤ → ℤ → Vec4)
    (rdata : ℤ → ℤ → ℤ) (rid : ℤ) (color : Vec4) (opacity : ℝ)
    (thickness R : ℤ) (x y x1 y1 dx dy sx sy err : ℤ) (step : ℕ) (L : ℝ) :
    ℤ → ℤ → Vec4 :=
  match fuel with
  | 0 => buf
  | fuel + 1 =>
    let buf1 := strokeStep buf rdata rid color opacity thickness R x y step L
    if x = x1 ∧ y = y1 then buf1
    else
      let e2 := 2 * err
      let err1 := if e2 > -dy then err - dy else err
      let x2 := if e2 > -dy then x + sx else x
      let err2 := if e2 < dx then err1 + dx else err1
      let y2 := if e2 < dx then y + sy else y
      strokeLoop fuel buf1 rdata rid color opacity thickness R
        x2 y2 x1 y1 dx dy sx sy err2 (step + 1) L

open Classical in
/-- `draw_brush_stroke_in_region` (lines 706-776): clamp the endpoints to the
buffer, set up the Bresenham parameters and the arc length
`sqrt(dx^2 + dy^2)` (replaced by 1 when zero), then run the trace. -/
noncomputable def draw_brush_stroke_in_region (buf : ℤ → ℤ → Vec4)
    (x0 y0 x1 y1 : ℤ) (color : Vec4) (thickness R : ℤ)
    (rdata : ℤ → ℤ → ℤ) (rid : ℤ) (opacity : ℝ) : ℤ → ℤ → Vec4 :=
  let cx0 := max 0 (min (R - 1) x0)
  let cy0 := max 0 (min (R - 1) y0)
  let cx1 := max 0 (min (R - 1) x1)
  let cy1 := max 0 (min (R - 1) y1)
  let dx := |cx1 - cx0|
  let dy := |cy1 - cy0|
  let sx : ℤ := if cx0 < cx1 then 1 else -1
  let sy : ℤ := if cy0 < cy1 then 1 else -1
  let err := dx - dy
  let L0 : ℝ := Real.sqrt ((dx : ℝ) * dx + (dy : ℝ) * dy)
  let L : ℝ := if L0 = 0 then 1 else L0
  strokeLoop ((dx + dy).toNat + 1) buf rdata rid color opacity thickness R
    cx0 cy0 cx1 cy1 dx dy sx sy err 0 L

/-- `get_barycentric_coords` (lines 778-807) over exact rationals: with
`tri = (A, B, C)` it sets `v0 = C - A`, `v1 = B - A`, `v2 = P - A`, rejects a
near-degenerate denominator, and returns `(1 - v - w, v, w)`. -/
def get_barycentric_coords (point : Q2) (tri : Q2 × Q2 × Q2) : Option Q3 :=
  let v0x := tri.2.2.1 - tri.1.1
  let v0y := tri.2.2.2 - tri.1.2
  let v1x := tri.2.1.1 - tri.1.1
  let v1y := tri.2.1.2 - tri.1.2
  let v2x := point.1 - tri.1.1
  let v2y := point.2 - tri.1.2
  let d00 := v0x * v0x + v0y * v0y
  let d01 := v0x * v1x + v0y * v1y
  let d11 := v1x * v1x + v1y * v1y
  let d20 := v2x * v0x + v2y * v0y
  let d21 := v2x * v1x + v2y * v1y
  let denom := d00 * d11 - d01 * d01
  if |denom| < 1/100000 then none
  else
    let v := (d11 * d20 - d01 * d21) / denom
    let w := (d00 * d21 - d01 * d20) / denom
    some (1 - v - w, v, w)

/-- `is_point_in_triangle_float` (lines 809-817): all three returned
coordinates nonnegative. -/
def is_point_in_triangle_float (point : Q2) (tri : Q2 × Q2 × Q2) : Bool :=
  match get_barycentric_coords point tri with
  | none => false
  | some uvw => decide (0 ≤ uvw.1) && decide (0 ≤ uvw.2.1) && decide (0 ≤ uvw.2.2)

/-- `lines_intersect` (lines 819-844): segment intersection via the
parametric solution, `False` for near-parallel segments. -/
def lines_intersect (p1 p2 p3 p4 : Q2) : Bool :=
  let dx1 := p2.1 - p1.1
  let dy1 := p2.2 - p1.2
  let dx2 := p4.1 - p3.1
  let dy2 := p4.2 - p3.2
  let d := dx1 * dy2 - dy1 * dx2
  if |d| < 1/100000 then false
  else
    let s := ((p1.1 - p3.1) * dy2 - (p1.2 - p3.2) * dx2) / d
    let t := ((p3.1 - p1.1) * dy1 - (p3.2 - p1.2) * dx1) / (-d)
    decide (0 ≤ s) && decide (s ≤ 1) && decide (0 ≤ t) && decide (t ≤ 1)

/-- The conservative three-part coverage test (lines 254-293): any pixel
corner inside the triangle, or the center inside, or any pixel edge
intersecting any triangle edge. -/
def pixelCovered (x y : ℤ) (tri : Q2 × Q2 × Q2) : Bool :=
  let c0 : Q2 := ((x : ℚ) - 1/2, (y : ℚ) - 1/2)
  let c1 : Q2 := ((x : ℚ) + 1/2, (y : ℚ) - 1/2)
  let c2 : Q2 := ((x : ℚ) - 1/2, (y : ℚ) + 1/2)
  let c3 : Q2 := ((x : ℚ) + 1/2, (y : ℚ) + 1/2)
  ([c0, c1, c2, c3].any (fun c => is_point_in_triangle_float c tri))
  || is_point_in_triangle_float ((x : ℚ), (y : ℚ)) tri
  || (let pixelEdges := [(c0, c1), (c1, c3), (c3, c2), (c2, c0)]
      let triEdges := [(tri.1, tri.2.1), (tri.2.1, tri.2.2), (tri.2.2, tri.1)]
      pixelEdges.any (fun pe => triEdges.any (fun te =>
        lines_intersect pe.1 pe.2 te.1 te.2)))

/-- The per-pixel rasterization buffers (lines 48-54). -/
structure RastBufs where
  ownership : ℤ → ℤ → ℤ
  normalData : ℤ → ℤ → Q3
  faceIdData : ℤ → ℤ → ℤ
  regionIdData : ℤ → ℤ → ℤ
  uvData : ℤ → ℤ → Q2

/-- Initial rasterization buffers: ownership, face ids and region ids are
`-1` everywhere, normals and UVs zero (lines 48-54). -/
def rastBufs0 : RastBufs :=
  { ownership := fun _ _ => -1
    normalData := fun _ _ => (0, 0, 0)
    faceIdData := fun _ _ => -1
    regionIdData := fun _ _ => -1
    uvData := fun _ _ => (0, 0) }

/-- Point update of a 2-dimensional buffer. -/
def updAt2 {α : Type} (f : ℤ → ℤ → α) (y x : ℤ) (v : α) : ℤ → ℤ → α :=
  fun yy xx => if yy = y ∧ xx = x then v else f yy xx

/-- The body of the per-pixel loop (lines 252-311): if the pixel is covered
and the barycentric computation at its center succeeds, write owner, flat
normal, face id, region id and the interpolated UV (weights applied to the
corner UVs in the listed order). -/
def rasterPixel (objIndex faceId regionId : ℤ) (fn : Q3)
    (tri triReal : Q2 × Q2 × Q2) (bufs : RastBufs) (xy : ℤ × ℤ) : RastBufs :=
  let y := xy.1
  let x := xy.2
  if pixelCovered x y tri then
    match get_barycentric_coords ((x : ℚ), (y : ℚ)) tri with
    | some uvw =>
      let u := triReal.1.1 * uvw.1 + triReal.2.1.1 * uvw.2.1
               + triReal.2.2.1 * uvw.2.2
      let v := triReal.1.2 * uvw.1 + triReal.2.1.2 * uvw.2.1
               + triReal.2.2.2 * uvw.2.2
      { ownership := updAt2 bufs.ownership y x objIndex
        normalData := updAt2 bufs.normalData y x fn
        faceIdData := updAt2 bufs.faceIdData y x faceId
        regionIdData := updAt2 bufs.regionIdData y x regionId
        uvData := updAt2 bufs.uvData y x (u, v) }
    | none => bufs
  else bufs

/-- The integer interval `[a, b)` as a list. -/
def intRange (a b : ℤ) : List ℤ := (List.range (b - a).toNat).map (fun k => a + k)

/-- Minimum of a list of rationals (Python `min`; 0 for the empty list,
which the rasterizer never passes). -/
def listMinQ : List ℚ → ℚ
  | [] => 0
  | q :: qs => qs.foldl min q

/-- Maximum of a list of rationals (Python `max`). -/
def listMaxQ : List ℚ → ℚ
  | [] => 0
  | q :: qs => qs.foldl max q

/-- The pixel list of the 1px-expanded, buffer-clamped triangle bounding box
(lines 246-253), row by row. -/
def triBBoxList (R : ℤ) (tri : Q2 × Q2 × Q2) : List (ℤ × ℤ) :=
  let xs := [tri.1.1, tri.2.1.1, tri.2.2.1]
  let ys := [tri.1.2, tri.2.1.2, tri.2.2.2]
  let mnx := max 0 (pyInt (listMinQ xs - 1))
  let mxx := min (R - 1) (pyInt (listMaxQ xs + 1))
  let mny := max 0 (pyInt (listMinQ ys - 1))
  let mxy := min (R - 1) (pyInt (listMaxQ ys + 1))
  (intRange mny (mxy + 1)).flatMap
    (fun y => (intRange mnx (mxx + 1)).map (fun x => (y, x)))

/-- Rasterization of one triangle (lines 241-311): scan the 1px-expanded,
buffer-clamped bounding box row by row and run `rasterPixel` at each pixel.
`tri` holds the UVs scaled to pixel space, `triReal` the original UVs. -/
def rasterizeTriangle (R objIndex faceId regionId : ℤ) (fn : Q3)
    (tri triReal : Q2 × Q2 × Q2) (bufs : RastBufs) : RastBufs :=
  (triBBoxList R tri).foldl
    (rasterPixel objIndex faceId regionId fn tri triReal) bufs

/-- A mesh face as the segmenter sees it: its bmesh index and its flat
normal. -/
structure Face where
  index : ℕ
  normal : Q3
deriving DecidableEq

/-- The clamped cosine between two flat normals (lines 167-169):
`max(-1.0, min(1.0, normal1.dot(normal2)))`. -/
def clampedCos (n₁ n₂ : Q3) : ℚ :=
  max (-1) (min 1 (n₁.1 * n₂.1 + n₁.2.1 * n₂.2.1 + n₁.2.2 * n₂.2.2))

/-- The angle test of lines 170-173: `acos` of the clamped dot product is at
most the threshold `θ` (in radians). -/
def similarNormals (θ : ℝ) (n₁ n₂ : Q3) : Prop :=
  Real.arccos ((clampedCos n₁ n₂ : ℚ) : ℝ) ≤ θ

/-- `edge_to_faces` (lines 138-143): keep the edges with exactly two linked
faces, both of which are valid; an edge is given by the indices of its
linked faces, resolved against the valid-face list. -/
def edge_to_faces (validFaces : List Face) (edges : List (List ℕ)) :
    List (Face × Face) :=
  edges.filterMap (fun e =>
    match e with
    | [i, j] =>
      match validFaces.find? (fun f => f.index == i),
            validFaces.find? (fun f => f.index == j) with
      | some f₁, some f₂ => some (f₁, f₂)
      | _, _ => none
    | _ => none)

/-- `similar_edges` (lines 154-174): the adjacent face pairs passing the
angle test, as pairs of offset face ids.  The Boolean `sim` stands for the
(real-valued, hence not directly computable) angle test; the theorems tie it
to `similarNormals`. -/
def similar_edges (sim : Q3 → Q3 → Bool) (validFaces : List Face)
    (edges : List (List ℕ)) (faceOff : ℕ) : List (ℕ × ℕ) :=
  (edge_to_faces validFaces edges).filterMap (fun fp =>
    if sim fp.1.normal fp.2.normal then
      some (fp.1.index + faceOff, fp.2.index + faceOff)
    else none)

/-- The initial `region_map` (lines 145-149): each valid face, in order,
is assigned the next region id starting at `regOff`. -/
def regionMap0 : List Face → ℕ → ℕ → List (ℕ × ℕ)
  | [], _, _ => []
  | f :: rest, faceOff, regOff =>
    (f.index + faceOff, regOff) :: regionMap0 rest faceOff (regOff + 1)

/-- `find` with path compression (lines 180-183), with explicit fuel: the
returned pair is the root and the updated parent map. -/
def findAux : ℕ → (ℕ → ℕ) → ℕ → ℕ × (ℕ → ℕ)
  | 0, p, x => (x, p)
  | fuel + 1, p, x =>
    if p x = x then (x, p)
    else
      let r := findAux fuel p (p x)
      (r.1, fun y => if y = x then r.1 else r.2 y)

/-- The union-find state: the `parent` and `rank` dictionaries
(lines 176-178), as total maps defaulting to identity and zero. -/
structure UF where
  parent : ℕ → ℕ
  rank : ℕ → ℕ

/-- The initial union-find state (lines 196-199): every id is its own
parent with rank 0. -/
def uf0 : UF := ⟨fun x => x, fun _ => 0⟩

/-- `union` by rank (lines 185-194): find both roots (with compression); if
distinct, attach the smaller-rank root under the other, incrementing the
rank on a tie. -/
def unionOp (fuel : ℕ) (uf : UF) (a b : ℕ) : UF :=
  let fa := findAux fuel uf.parent a
  let fb := findAux fuel fa.2 b
  let ra := fa.1
  let rb := fb.1
  let p := fb.2
  if ra = rb then { parent := p, rank := uf.rank }
  else if uf.rank ra < uf.rank rb then
    { parent := fun z => if z = ra then rb else p z, rank := uf.rank }
  else
    { parent := fun z => if z = rb then ra else p z
      rank := fun z => if z = ra ∧ uf.rank ra = uf.rank rb
                       then uf.rank z + 1 else uf.rank z }

/-- The union loop over the similar edges (lines 201-205): each pair of face
ids is resolved through `region_map` and their regions are unioned. -/
def processEdges (fuel : ℕ) (uf : UF) (rm0 : List (ℕ × ℕ))
    (es : List (ℕ × ℕ)) : UF :=
  es.foldl
    (fun u e => unionOp fuel u ((rm0.lookup e.1).getD 0) ((rm0.lookup e.2).getD 0))
    uf

/-- The resolution loop (lines 207-209): replace every face's region by the
root of its region, threading the compressed parent map through. -/
def resolveAux (fuel : ℕ) : List (ℕ × ℕ) → (ℕ → ℕ) → List (ℕ × ℕ) × (ℕ → ℕ)
  | [], p => ([], p)
  | (f, r) :: rest, p =>
    let fr := findAux fuel p r
    let res := resolveAux fuel rest fr.2
    ((f, fr.1) :: res.1, res.2)

/-- The compaction loop (lines 211-221): walk the region map in order,
assigning each new root the next compact id; returns the compacted
assignment list, the final remapping and the next free id. -/
def compactAux : List (ℕ × ℕ) → List (ℕ × ℕ) → ℕ →
    List (ℕ × ℕ) × List (ℕ × ℕ) × ℕ
  | [], remap, nxt => ([], remap, nxt)
  | (f, r) :: rest, remap, nxt =>
    match remap.lookup r with
    | some c =>
      let res := compactAux rest remap nxt
      ((f, c) :: res.1, res.2)
    | none =>
      let res := compactAux rest ((r, nxt) :: remap) (nxt + 1)
      ((f, nxt) :: res.1, res.2)

/-- The full per-object segmentation (lines 133-224): initial singleton
regions, union over the similar edges, root resolution, and compaction
starting at `regOff`. -/
def segmentObject (sim : Q3 → Q3 → Bool) (validFaces : List Face)
    (edges : List (List ℕ)) (faceOff regOff : ℕ) :
    List (ℕ × ℕ) × List (ℕ × ℕ) × ℕ :=
  let rm0 := regionMap0 validFaces faceOff regOff
  let fuel := validFaces.length + 1
  let es := similar_edges sim validFaces edges faceOff
  let uf1 := processEdges fuel uf0 rm0 es
  let res := resolveAux fuel rm0 uf1.parent
  compactAux res.1 [] regOff

/-- The region id assigned to a face id by a segmentation result. -/
def regionOf (result : List (ℕ × ℕ) × List (ℕ × ℕ) × ℕ) (faceId : ℕ) :
    Option ℕ :=
  result.1.lookup faceId

/-- One mesh object as the object loop sees it (lines 91-120): whether it
has UV layers, whether an active UV layer exists when queried after the
unwrap attempt, its total face count, its valid faces and its edges. -/
structure MeshObj where
  hasUVLayers : Bool
  activeUV : Bool
  numFaces : ℕ
  validFaces : List Face
  edges : List (List ℕ)

/-- Lines 95-108: the automatic `smart_project` unwrap is invoked exactly
for the objects with no UV layers. -/
def unwrap_invoked (o : MeshObj) : Bool := !o.hasUVLayers

/-- Line 117-120: an object is skipped iff no active UV layer exists even
after the unwrap attempt. -/
def object_skipped (o : MeshObj) : Bool := !o.activeUV

/-- The object loop (lines 91-224 and 313-315): skipped objects contribute
nothing and advance no offset; processed objects are segmented and advance
the face-id offset by their total face count and the region-id offset to
the next free compact id.  Each processed object yields its assignment list
and its freshly assigned region ids in assignment order. -/
def processObjects (sim : Q3 → Q3 → Bool) :
    List MeshObj → ℕ → ℕ → List (List (ℕ × ℕ) × List ℕ)
  | [], _, _ => []
  | o :: rest, faceOff, regOff =>
    if o.activeUV then
      let seg := segmentObject sim o.validFaces o.edges faceOff regOff
      (seg.1, (seg.2.1.map Prod.snd).reverse) ::
        processObjects sim rest (faceOff + o.numFaces) seg.2.2
    else
      processObjects sim rest faceOff regOff

/-- All face-to-region assignments produced by a run, in object order. -/
def regionAssignmentsAll (sim : Q3 → Q3 → Bool) (objs : List MeshObj)
    (faceOff regOff : ℕ) : List (ℕ × ℕ) :=
  (processObjects sim objs faceOff regOff).flatMap Prod.fst

/-- All compact region ids assigned during a run, in assignment order. -/
def regionIdsAll (sim : Q3 → Q3 → Bool) (objs : List MeshObj)
    (faceOff regOff : ℕ) : List ℕ :=
  (processObjects sim objs faceOff regOff).flatMap Prod.snd

/-- The stroke width/length configuration of the run. -/
structure StrokeConfig where
  widthLo : ℤ
  widthHi : ℤ
  lengthLo : ℤ
  lengthHi : ℤ

/-- The per-pixel data the stroke phase reads (built by the rasterization
phase): resolution, ownership, region ids, flat normals, UVs, the optional
shared texture cache and the per-object fallback base color. -/
structure SceneData where
  R : ℤ
  ownership : ℤ → ℤ → ℤ
  rdata : ℤ → ℤ → ℤ
  ndata : ℤ → ℤ → Q3
  uvdata : ℤ → ℤ → Q2
  tex : Option (List (List Vec4) × ℕ × ℕ)
  baseColor : ℕ → ℝ × ℝ × ℝ

/-- The random source: a stream of real draws (`random.uniform`,
`random.random`, `np.random.uniform`) and a stream of integer draws
(`random.randint`), consumed through a running counter. -/
structure Rng where
  q : ℕ → ℝ
  z : ℕ → ℤ

/-- The mutable state of the stroke phase: the two output buffers and the
random-draw counter. -/
structure PaintState where
  normalBuf : ℤ → ℤ → Vec4
  colorBuf : ℤ → ℤ → Vec4
  ctr : ℕ

/-- The row-major pixel grid `[0,R) × [0,R)` as `(y, x)` pairs, matching
`np.argwhere` enumeration order. -/
def pixelGrid (R : ℤ) : List (ℤ × ℤ) :=
  (List.range R.toNat).flatMap
    (fun y => (List.range R.toNat).map (fun x => ((y : ℤ), (x : ℤ))))

/-- `obj_pixels` (line 329): the pixels owned by the given object. -/
def objPixels (sc : SceneData) (obj : ℕ) : List (ℤ × ℤ) :=
  (pixelGrid sc.R).filter (fun pr => sc.ownership pr.1 pr.2 = (obj : ℤ))

/-- `object_regions` (lines 338-342): the nonnegative region ids occurring
among the object's pixels (the Python set is modelled as a deduplicated
list; no claim depends on its iteration order). -/
def objectRegions (sc : SceneData) (obj : ℕ) : List ℤ :=
  (((objPixels sc obj).map (fun pr => sc.rdata pr.1 pr.2)).filter
    (fun r => 0 ≤ r)).dedup

/-- Minimum of a list of integers (Python `min`; 0 for the empty list,
which the planner never passes). -/
def listMinZ : List ℤ → ℤ
  | [] => 0
  | a :: as' => as'.foldl min a

/-- Maximum of a list of integers (Python `max`). -/
def listMaxZ : List ℤ → ℤ
  | [] => 0
  | a :: as' => as'.foldl max a

/-- `range(a, stop, step)` for a positive step. -/
def rangeStep (a stop step : ℤ) : List ℤ :=
  if 0 < step ∧ a < stop then
    (List.range (((stop - 1 - a) / step).toNat + 1)).map (fun k => a + k * step)
  else []

/-- The cell scan of lines 395-401: candidate pixels of one grid cell in
row-major order, rows and columns clipped at the resolution. -/
def cellScan (gy gx gridSize R : ℤ) : List (ℤ × ℤ) :=
  (intRange gy (min (gy + gridSize) R)).flatMap
    (fun y => (intRange gx (min (gx + gridSize) R)).map (fun x => (y, x)))

/-- `mathutils` vector length of a rational 3-vector. -/
noncomputable def normLenQ3 (n : Q3) : ℝ :=
  Real.sqrt (((n.1 : ℝ))^2 + ((n.2.1 : ℝ))^2 + ((n.2.2 : ℝ))^2)

/-- `math.atan2`, modelled as the argument of the complex number `x + i y`
(both have range `(-π, π]` with the same quadrant conventions). -/
noncomputable def atan2 (y x : ℝ) : ℝ := Complex.arg ⟨x, y⟩

/-- Clamp a real into `[0, 1]` (`max(0.0, min(1.0, c))`, lines 461-463). -/
noncomputable def clamp01 (v : ℝ) : ℝ := max 0 (min 1 v)

/-- The stroke direction heuristic (lines 427-432 and 511-518): the
normalized cross product of the unit normal with world up `(0, 0, 1)`,
falling back to `(1, 0, 0)` when nearly parallel, as a base angle.
With `n = (nx, ny, nz)` the cross product is `(ny, -nx, 0)`. -/
noncomputable def tangentAngle (nx ny nz : ℝ) : ℝ :=
  let tx := ny
  let ty := -nx
  if Real.sqrt (tx^2 + ty^2) < 1/1000 then atan2 0 1
  else
    let len := Real.sqrt (tx^2 + ty^2)
    atan2 (ty / len) (tx / len)

open Classical in
/-- The texture color for a pixel (lines 421-424 and 505-508): sample the
shared cache when present, else the object's base color. -/
noncomputable def pixelTextureColor (sc : SceneData) (obj : ℕ) (uv : Q2) :
    ℝ × ℝ × ℝ :=
  match sc.tex with
  | some td => sample_cached_texture td.1 td.2.1 td.2.2 uv.1 uv.2
  | none => sc.baseColor obj

/-- The common tail of both stroke emitters (lines 439-475 and 526-562):
given the anchor, the direction angle and the random width/length, compute
the endpoints, the packed-normal color and the jittered texture color, and
composite one stroke into each buffer, constrained to `rid`. -/
noncomputable def emitStroke (sc : SceneData) (rid : ℤ) (x y : ℤ)
    (nx ny nz : ℝ) (tc : ℝ × ℝ × ℝ) (angle : ℝ) (width length : ℤ)
    (j0 j1 j2 : ℝ) (opacity : ℝ) (ps : PaintState) (newCtr : ℕ) : PaintState :=
  let dirx := Real.cos angle
  let diry := Real.sin angle
  let halfLen : ℝ := (length : ℝ) / 2
  let x0 := pyIntR ((x : ℝ) - dirx * halfLen)
  let y0 := pyIntR ((y : ℝ) - diry * halfLen)
  let x1 := pyIntR ((x : ℝ) + dirx * halfLen)
  let y1 := pyIntR ((y : ℝ) + diry * halfLen)
  let normalColor : Vec4 := (nx * (1/2) + 1/2, ny * (1/2) + 1/2,
                             nz * (1/2) + 1/2, 1)
  let variedColor : Vec4 := (clamp01 (tc.1 + j0), clamp01 (tc.2.1 + j1),
                             clamp01 (tc.2.2 + j2), 1)
  { normalBuf := draw_brush_stroke_in_region ps.normalBuf x0 y0 x1 y1
      normalColor width sc.R sc.rdata rid opacity
    colorBuf := draw_brush_stroke_in_region ps.colorBuf x0 y0 x1 y1
      variedColor width sc.R sc.rdata rid opacity
    ctr := newCtr }

open Classical in
/-- One grid cell of the coverage pass (lines 377-478): skip covered cells,
pick a representative region pixel (cell center if region-owned, else the
first match of the cell scan), and emit one stroke there; cells with no
region pixel or a degenerate stored normal are skipped without being marked
covered. -/
noncomputable def coverageCell (sc : SceneData) (rng : Rng) (obj : ℕ)
    (rid : ℤ) (regionPixels : List (ℤ × ℤ)) (gridSize : ℤ)
    (st : PaintState × List (ℤ × ℤ)) (cell : ℤ × ℤ) :
    PaintState × List (ℤ × ℤ) :=
  let gy := cell.1
  let gx := cell.2
  let key := (gx / gridSize, gy / gridSize)
  if key ∈ st.2 then st
  else
    let cx := gx + gridSize / 2
    let cy := gy + gridSize / 2
    let best : Option (ℤ × ℤ) :=
      if (cy, cx) ∈ regionPixels then some (cy, cx)
      else (cellScan gy gx gridSize sc.R).find? (fun pr => pr ∈ regionPixels)
    match best with
    | none => st
    | some yx =>
      let nv := sc.ndata yx.1 yx.2
      if normLenQ3 nv < 1/1000 then st
      else
        let len := normLenQ3 nv
        let nx := (nv.1 : ℝ) / len
        let ny := (nv.2.1 : ℝ) / len
        let nz := (nv.2.2 : ℝ) / len
        let tc := pixelTextureColor sc obj (sc.uvdata yx.1 yx.2)
        let ps := st.1
        let angle := tangentAngle nx ny nz + rng.q ps.ctr
        let width := rng.z (ps.ctr + 1)
        let length := rng.z (ps.ctr + 2)
        let ps' := emitStroke sc rid yx.2 yx.1 nx ny nz tc angle width length
          (rng.q (ps.ctr + 3)) (rng.q (ps.ctr + 4)) (rng.q (ps.ctr + 5))
          (4/5) ps (ps.ctr + 6)
        (ps', key :: st.2)

open Classical in
/-- One accent stroke (lines 486-562): pick a random region pixel, skip a
degenerate stored normal, choose the normal-tangent direction with
probability 0.7 and a fully random one otherwise, and emit a shorter stroke
at opacity 0.7. -/
noncomputable def accentStroke (sc : SceneData) (rng : Rng) (obj : ℕ)
    (rid : ℤ) (regionPixels : List (ℤ × ℤ)) (ps : PaintState) : PaintState :=
  if regionPixels = [] then ps
  else
    let idx := (rng.z ps.ctr).toNat % regionPixels.length
    let yx := regionPixels.getD idx (0, 0)
    let nv := sc.ndata yx.1 yx.2
    if (nv.1 * nv.1 + nv.2.1 * nv.2.1 + nv.2.2 * nv.2.2 : ℚ) < 1/1000 then
      { ps with ctr := ps.ctr + 1 }
    else
      let len := normLenQ3 nv
      let nx := (nv.1 : ℝ) / len
      let ny := (nv.2.1 : ℝ) / len
      let nz := (nv.2.2 : ℝ) / len
      let tc := pixelTextureColor sc obj (sc.uvdata yx.1 yx.2)
      let angle := if rng.q (ps.ctr + 1) < 7/10
                   then tangentAngle nx ny nz + rng.q (ps.ctr + 2)
                   else rng.q (ps.ctr + 2)
      let width := rng.z (ps.ctr + 3)
      let length := rng.z (ps.ctr + 4)
      emitStroke sc rid yx.2 yx.1 nx ny nz tc angle width length
        (rng.q (ps.ctr + 5)) (rng.q (ps.ctr + 6)) (rng.q (ps.ctr + 7))
        (7/10) ps (ps.ctr + 8)

/-- Processing of one region (lines 347-562): regions with fewer than 10
pixels are skipped; otherwise the grid-based coverage pass runs, followed
by `len(region_pixels) // 800` accent strokes. -/
noncomputable def processRegion (sc : SceneData) (cfg : StrokeConfig)
    (rng : Rng) (obj : ℕ) (objPix : List (ℤ × ℤ)) (ps : PaintState)
    (rid : ℤ) : PaintState :=
  let regionPixels := objPix.filter (fun pr => sc.rdata pr.1 pr.2 = rid)
  if regionPixels.length < 10 then ps
  else
    let avgW : ℚ := ((cfg.widthLo : ℚ) + (cfg.widthHi : ℚ)) / 2
    let avgL : ℚ := ((cfg.lengthLo : ℚ) + (cfg.lengthHi : ℚ)) / 2
    let gridSize := max 5 (pyInt (min avgL avgW * (6/10)))
    let mnx := listMinZ (regionPixels.map Prod.snd)
    let mxx := listMaxZ (regionPixels.map Prod.snd)
    let mny := listMinZ (regionPixels.map Prod.fst)
    let mxy := listMaxZ (regionPixels.map Prod.fst)
    let cells := (rangeStep mny (mxy + 1) gridSize).flatMap
      (fun gy => (rangeStep mnx (mxx + 1) gridSize).map (fun gx => (gy, gx)))
    let st := cells.foldl (coverageCell sc rng obj rid regionPixels gridSize)
      (ps, [])
    let num := (regionPixels.length : ℤ) / 800
    (List.range num.toNat).foldl
      (fun p _ => accentStroke sc rng obj rid regionPixels p) st.1

/-- The stroke phase for one object (lines 322-344): objects owning no
pixels are skipped; otherwise every region of the object is processed. -/
noncomputable def processObjectStrokes (sc : SceneData) (cfg : StrokeConfig)
    (rng : Rng) (ps : PaintState) (obj : ℕ) : PaintState :=
  let pix := objPixels sc obj
  if pix = [] then ps
  else (objectRegions sc obj).foldl (processRegion sc cfg rng obj pix) ps

/-- The full stroke phase (lines 319-562): the objects in input order. -/
noncomputable def strokePhase (sc : SceneData) (cfg : StrokeConfig)
    (rng : Rng) (numObjects : ℕ) (ps0 : PaintState) : PaintState :=
  (List.range numObjects).foldl (processObjectStrokes sc cfg rng) ps0

/-- A concrete 4x4 scene: every pixel owned by object 0, region 5 holding
only the origin pixel and region 0 the rest, flat +Z stored normals, no
texture cache. -/
noncomputable def sceneW : SceneData :=
  ⟨4, fun _ _ => 0, fun y x => if y = 0 ∧ x = 0 then 5 else 0,
   fun _ _ => (0, 0, 1), fun _ _ => (0, 0), none, fun _ => (0, 0, 0)⟩

/-- Connectivity through a chain of related pairs: the equivalence closure
of a relation. -/
inductive Connected (Rel : ℕ → ℕ → Prop) : ℕ → ℕ → Prop where
  | rel {a b : ℕ} : Rel a b → Connected Rel a b
  | refl (a : ℕ) : Connected Rel a a
  | symm {a b : ℕ} : Connected Rel a b → Connected Rel b a
  | trans {a b c : ℕ} : Connected Rel a b → Connected Rel b c → Connected Rel a c

/-- The similar-normal adjacency relation on face indices: the two faces
share an edge with exactly two valid linked faces and their flat normals
pass the angle test. -/
def SimAdj (θ : ℝ) (validFaces : List Face) (edges : List (List ℕ))
    (a b : ℕ) : Prop :=
  ∃ fp ∈ edge_to_faces validFaces edges,
    similarNormals θ fp.1.normal fp.2.normal ∧ a = fp.1.index ∧ b = fp.2.index

/-- The root of `x` under parent map `p`, chased with fuel (specification
companion of `findAux`; with enough fuel it is the fixpoint `findAux`
reaches, and path compression never changes it). -/
def rootAux : ℕ → (ℕ → ℕ) → ℕ → ℕ
  | 0, _, x => x
  | fuel + 1, p, x => if p x = x then x else rootAux fuel p (p x)

/-- Two ids lie in the same union-find class: equal roots. -/
def sameRoot (fuel : ℕ) (p : ℕ → ℕ) (x y : ℕ) : Prop :=
  rootAux fuel p x = rootAux fuel p y

/-- The union-find invariant over the finite id domain `D`: the parent map
fixes everything outside `D`, maps `D` into `D`, strictly increases the
rank toward the root, and the fuel `F` exceeds the size of `D`. -/
structure UFInv (F : ℕ) (D : Finset ℕ) (p rk : ℕ → ℕ) : Prop where
  closed : ∀ x ∈ D, p x ∈ D
  fixOut : ∀ x, x ∉ D → p x = x
  rankLt : ∀ x, p x ≠ x → rk x < rk (p x)
  cardLt : D.card < F

/-- The termination measure of the parent chase: how many ids of `D` have a
strictly larger rank than `x`. -/
def mval (D : Finset ℕ) (rk : ℕ → ℕ) (x : ℕ) : ℕ :=
  (D.filter (fun y => rk x < rk y)).card

/-- Point update of a parent map (the shape of every mutation the union-find
performs). -/
def updFn (p : ℕ → ℕ) (a b : ℕ) : ℕ → ℕ := fun z => if z = a then b else p z

/-! ## Theorems -/

/-- C6, counterexample: at pixel (0,0) the initial color buffer holds opaque
white `(1,1,1,1)` (from `np.ones`), not neutral gray, so the claim that the
color buffer is initialized to neutral gray fails. -/
theorem c6_color_init_not_gray :
    colorArrayInit 0 0 = (1, 1, 1, 1) ∧
    colorArrayInit 0 0 ≠ (neutralGray.1, neutralGray.2.1, neutralGray.2.2, 1) := by
  refine ⟨rfl, fun h => ?_⟩
  have h1 := congrArg Prod.fst h
  simp only [colorArrayInit, neutralGray] at h1
  norm_num at h1

/-- C6, amended: before any stroke is composited every pixel of the normal
buffer holds the packed flat +Z normal `(0.5, 0.5, 1.0)` with alpha 1, and
every pixel of the color buffer holds opaque white `(1, 1, 1, 1)`. -/
theorem c6_initial_buffers (y x : ℤ) :
    normalArrayInit y x = (1/2, 1/2, 1, 1) ∧ colorArrayInit y x = (1, 1, 1, 1) :=
  ⟨rfl, rfl⟩

lemma pyInt_of_nonneg {q : ℚ} (h : 0 ≤ q) : pyInt q = ⌊q⌋ := if_pos h

lemma pyIntR_of_nonneg {x : ℝ} (h : 0 ≤ x) : pyIntR x = ⌊x⌋ := if_pos h

/-- C9: for `u, v ∈ [0,1]` the sampler returns the RGB of the cached array at
pixel `(floor(u*width), floor(v*height))` with each index clamped into the
valid range, and neutral gray instead of an error on access failure. -/
theorem c9_sampler (tex : List (List Vec4)) (w h : ℕ) (u v : ℚ)
    (hu0 : 0 ≤ u) (hu1 : u ≤ 1) (hv0 : 0 ≤ v) (hv1 : v ≤ 1) :
    sample_cached_texture tex w h u v =
      match (tex.get? (max 0 (min ((h : ℤ) - 1) ⌊v * h⌋)).toNat).bind
          (fun row => row.get? (max 0 (min ((w : ℤ) - 1) ⌊u * w⌋)).toNat) with
      | some px => (px.1, px.2.1, px.2.2.1)
      | none => neutralGray := by
  have hw : (0 : ℚ) ≤ u * w := mul_nonneg hu0 (by positivity)
  have hh : (0 : ℚ) ≤ v * h := mul_nonneg hv0 (by positivity)
  simp only [sample_cached_texture, pyInt_of_nonneg hw, pyInt_of_nonneg hh]

/-- C9, witness: sampling a concrete cached 2x2 texture at `u = v = 1/2`
returns the pixel at the clamped floor indices `(1, 1)`. -/
theorem c9_sampler_witness :
    sample_cached_texture
      [[(1, 0, 0, 1), (0, 1, 0, 1)], [(0, 0, 1, 1), (1, 1, 0, 1)]]
      2 2 (1/2) (1/2) = (1, 1, 0) := by
  rw [c9_sampler _ _ _ _ _ (by norm_num) (by norm_num) (by norm_num) (by norm_num)]
  norm_num [List.get?]

/-- C8, counterexample: at stroke width 9 and traced step fraction
`t = 1/4` (reached, e.g., at step 4 of a 16-step axis-aligned trace), the
half-width of the applied square neighborhood is 3 pixels, while the claimed
value `width * (1 - 0.5*(2t-1)^2)` clamped to a minimum of 1 is `7.875`. -/
theorem c8_halfwidth_not_formula :
    ¬ (((brushHalfT 9 (1/4) : ℤ) : ℝ) =
        max 1 ((9 : ℝ) * (1 - 1/2 * (2 * (1/4) - 1)^2))) := by
  have harg : ((9 : ℤ) : ℝ) * (1 - 1/2 * (2 * ((1/4) : ℝ) - 1)^2) = 63/8 := by
    norm_num
  have hfl : ⌊(63/8 : ℝ)⌋ = 7 := by
    rw [Int.floor_eq_iff]
    norm_num
  have h1 : brushHalfT 9 (1/4) = 3 := by
    rw [brushHalfT, local_thickness, harg, pyIntR_of_nonneg (by norm_num), hfl]
    decide
  have hmax : max (1 : ℝ) ((9 : ℝ) * (1 - 1/2 * (2 * ((1/4) : ℝ) - 1)^2)) = 63/8 := by
    rw [show (9 : ℝ) * (1 - 1/2 * (2 * ((1/4) : ℝ) - 1)^2) = 63/8 by norm_num]
    exact max_eq_right (by norm_num)
  rw [h1, hmax]
  norm_num

/-- C8, amended: at a traced step whose fraction `t = step/L` lies in `[0,1]`
and whose center passes the bounds/region guard, the brush applies exactly
the region-masked, buffer-clamped square neighborhood whose half-width is
`(max 1 ⌊width * (1 - (2t-1)^2/2)⌋) / 2` (integer division): the clamped
taper formula is truncated to an integer and halved before use. -/
theorem c8_amended_step (buf : ℤ → ℤ → Vec4) (rdata : ℤ → ℤ → ℤ) (rid : ℤ)
    (color : Vec4) (op : ℝ) (c R x y : ℤ) (step : ℕ) (L : ℝ)
    (hL : 0 < L) (hstep : (step : ℝ) ≤ L) (hc : 0 ≤ c)
    (hguard : 0 ≤ y ∧ y < R ∧ 0 ≤ x ∧ x < R ∧ rdata y x = rid) :
    strokeStep buf rdata rid color op c R x y step L =
      (let ht := (max 1 ⌊(c : ℝ) * (1 - (2 * ((step : ℝ) / L) - 1)^2 / 2)⌋) / 2
       blendBox buf rdata rid color op
         (max 0 (x - ht)) (min (R - 1) (x + ht))
         (max 0 (y - ht)) (min (R - 1) (y + ht))) := by
  have ht0 : (0 : ℝ) ≤ (step : ℝ) / L := div_nonneg (Nat.cast_nonneg step) hL.le
  have ht1 : (step : ℝ) / L ≤ 1 := (div_le_one hL).mpr hstep
  have hsq : (2 * ((step : ℝ) / L) - 1)^2 ≤ 1 := by nlinarith
  have harg : (0 : ℝ) ≤ (c : ℝ) * (1 - 1/2 * (2 * ((step : ℝ) / L) - 1)^2) := by
    have : (0 : ℝ) ≤ (c : ℝ) := by exact_mod_cast hc
    nlinarith
  simp only [strokeStep, if_pos hguard, brushHalfT, local_thickness,
    pyIntR_of_nonneg harg]
  have : (c : ℝ) * (1 - 1/2 * (2 * ((step : ℝ) / L) - 1)^2)
       = (c : ℝ) * (1 - (2 * ((step : ℝ) / L) - 1)^2 / 2) := by ring
  rw [this]

/-- C8, witness: the amended taper statement evaluated at a concrete step
(width 2, step 0 of a unit-length trace anchored at the origin of a 4x4
buffer whose region data matches everywhere). -/
theorem c8_amended_step_witness :
    strokeStep (fun _ _ => ((0 : ℝ), (0 : ℝ), (0 : ℝ), (0 : ℝ)))
        (fun _ _ => 0) 0 (1, 1, 1, 1) (4/5) 2 4 0 0 0 1 =
      (let ht := (max 1 ⌊((2 : ℤ) : ℝ) * (1 - (2 * (((0 : ℕ) : ℝ) / 1) - 1)^2 / 2)⌋) / 2
       blendBox (fun _ _ => ((0 : ℝ), (0 : ℝ), (0 : ℝ), (0 : ℝ)))
         (fun _ _ => 0) 0 (1, 1, 1, 1) (4/5)
         (max 0 (0 - ht)) (min (4 - 1) (0 + ht))
         (max 0 (0 - ht)) (min (4 - 1) (0 + ht))) :=
  c8_amended_step _ _ _ _ _ 2 4 0 0 0 1 (by norm_num) (by norm_num)
    (by norm_num) (by norm_num)

lemma blendBox_ne {buf : ℤ → ℤ → Vec4} {rdata : ℤ → ℤ → ℤ} {rid : ℤ}
    {color : Vec4} {op : ℝ} {mnx mxx mny mxy yy xx : ℤ}
    (h : blendBox buf rdata rid color op mnx mxx mny mxy yy xx ≠ buf yy xx) :
    mny ≤ yy ∧ yy ≤ mxy ∧ mnx ≤ xx ∧ xx ≤ mxx ∧ rdata yy xx = rid := by
  by_cases hc : mny ≤ yy ∧ yy ≤ mxy ∧ mnx ≤ xx ∧ xx ≤ mxx ∧ rdata yy xx = rid
  · exact hc
  · exact absurd (if_neg hc) h

lemma strokeStep_ne {buf : ℤ → ℤ → Vec4} {rdata : ℤ → ℤ → ℤ} {rid : ℤ}
    {color : Vec4} {op : ℝ} {c R x y : ℤ} {step : ℕ} {L : ℝ} {yy xx : ℤ}
    (h : strokeStep buf rdata rid color op c R x y step L yy xx ≠ buf yy xx) :
    rdata yy xx = rid ∧ 0 ≤ xx ∧ xx ≤ R - 1 ∧ 0 ≤ yy ∧ yy ≤ R - 1 := by
  rw [strokeStep] at h
  by_cases hg : 0 ≤ y ∧ y < R ∧ 0 ≤ x ∧ x < R ∧ rdata y x = rid
  · rw [if_pos hg] at h
    obtain ⟨h1, h2, h3, h4, h5⟩ := blendBox_ne h
    refine ⟨h5, le_trans (le_max_left _ _) h3, le_trans h4 (min_le_left _ _),
      le_trans (le_max_left _ _) h1, le_trans h2 (min_le_left _ _)⟩
  · rw [if_neg hg] at h
    exact absurd rfl h

lemma strokeLoop_ne {rdata : ℤ → ℤ → ℤ} {rid : ℤ} {color : Vec4} {op : ℝ}
    {c R : ℤ} {yy xx : ℤ} :
    ∀ (fuel : ℕ) (buf : ℤ → ℤ → Vec4) (x y x1 y1 dx dy sx sy err : ℤ)
      (step : ℕ) (L : ℝ),
      strokeLoop fuel buf rdata rid color op c R x y x1 y1 dx dy sx sy err
          step L yy xx ≠ buf yy xx →
      rdata yy xx = rid ∧ 0 ≤ xx ∧ xx ≤ R - 1 ∧ 0 ≤ yy ∧ yy ≤ R - 1 := by
  intro fuel
  induction fuel with
  | zero => intro buf x y x1 y1 dx dy sx sy err step L h; exact absurd rfl h
  | succ n ih =>
    intro buf x y x1 y1 dx dy sx sy err step L h
    rw [strokeLoop] at h
    by_cases hstop : x = x1 ∧ y = y1
    · rw [if_pos hstop] at h
      exact strokeStep_ne h
    · rw [if_neg hstop] at h
      by_cases hmid : strokeLoop n
          (strokeStep buf rdata rid color op c R x y step L) rdata rid color
          op c R (if 2 * err > -dy then x + sx else x)
          (if 2 * err < dx then y + sy else y) x1 y1 dx dy sx sy
          (if 2 * err < dx then (if 2 * err > -dy then err - dy else err) + dx
           else (if 2 * err > -dy then err - dy else err)) (step + 1) L yy xx
        = strokeStep buf rdata rid color op c R x y step L yy xx
      · rw [hmid] at h
        exact strokeStep_ne h
      · exact ih _ _ _ _ _ _ _ _ _ _ _ _ hmid

/-- C1: every pixel whose value is changed by a composited stroke carries the
stroke's target region id in the shared region buffer and lies within the
buffer bounds `[0, R-1]` in both axes; pixels with non-matching stored
ownership are untouched regardless of their position. -/
theorem c1_stroke_containment (buf : ℤ → ℤ → Vec4) (x0 y0 x1 y1 : ℤ)
    (color : Vec4) (thickness R : ℤ) (rdata : ℤ → ℤ → ℤ) (rid : ℤ) (op : ℝ)
    (yy xx : ℤ)
    (hch : draw_brush_stroke_in_region buf x0 y0 x1 y1 color thickness R
        rdata rid op yy xx ≠ buf yy xx) :
    rdata yy xx = rid ∧ 0 ≤ xx ∧ xx ≤ R - 1 ∧ 0 ≤ yy ∧ yy ≤ R - 1 := by
  rw [draw_brush_stroke_in_region] at hch
  exact strokeLoop_ne _ _ _ _ _ _ _ _ _ _ _ _ _ hch

/-- C1, witness: a concrete one-step stroke at the origin of a 4x4 buffer
changes the origin pixel, and the containment conclusion holds there. -/
theorem c1_stroke_containment_witness :
    (fun (_ _ : ℤ) => (0 : ℤ)) 0 0 = 0 ∧ (0 : ℤ) ≤ 0 ∧ (0 : ℤ) ≤ 4 - 1 ∧
      (0 : ℤ) ≤ 0 ∧ (0 : ℤ) ≤ 4 - 1 :=
  c1_stroke_containment (fun _ _ => ((0 : ℝ), (0 : ℝ), (0 : ℝ), (0 : ℝ)))
    0 0 0 0 (1, 1, 1, 1) 2 4 (fun _ _ => 0) 0 (4/5) 0 0 (by
      have hL : Real.sqrt ((|(0 : ℤ) - 0| : ℝ) * (|(0 : ℤ) - 0| : ℝ)
          + (|(0 : ℤ) - 0| : ℝ) * (|(0 : ℤ) - 0| : ℝ)) = 0 := by
        norm_num
      simp only [draw_brush_stroke_in_region, strokeLoop, strokeStep, blendBox,
        blendPixel, brushHalfT, local_thickness]
      norm_num [pyIntR_of_nonneg]
      intro h
      have := congrArg (fun q : Vec4 => q.2.2.2) h
      norm_num [blendBox, blendPixel] at this)

/-- C3, code bug: rasterize the triangle with pixel-space corners
`A=(0,0), B=(5,0), C=(0,5)` (UVs `(0,0), (1,0), (0,1)` scaled by `R-1 = 5`)
at resolution 6.  The pixel center `(x,y) = (2,1)` lies strictly inside with
exact barycentric weights `(2/5, 2/5, 1/5)` for `(A, B, C)` (verified by the
first conjunct), so the exact interpolated UV is `(2/5, 1/5)`.  The code
writes the owner, but stores the UV `(1/5, 2/5)`: `get_barycentric_coords`
builds `v0` from vertex `C` while the caller applies the returned weights to
the corner UVs in `(A, B, C)` order, swapping the second and third weights.
The stored UV differs from the exact interpolation by `1/5 > 1/1000`. -/
lemma is_point_some {point : Q2} {tri : Q2 × Q2 × Q2} {uvw : Q3}
    (h : get_barycentric_coords point tri = some uvw) :
    is_point_in_triangle_float point tri =
      (decide (0 ≤ uvw.1) && decide (0 ≤ uvw.2.1) && decide (0 ≤ uvw.2.2)) := by
  unfold is_point_in_triangle_float
  rw [h]

lemma rasterPixel_other {obj fid rid : ℤ} {fn : Q3} {tri triReal : Q2 × Q2 × Q2}
    {bufs : RastBufs} {a : ℤ × ℤ} {y x : ℤ} (hne : ¬ (y = a.1 ∧ x = a.2)) :
    (rasterPixel obj fid rid fn tri triReal bufs a).ownership y x
        = bufs.ownership y x ∧
    (rasterPixel obj fid rid fn tri triReal bufs a).uvData y x
        = bufs.uvData y x := by
  rw [rasterPixel]
  by_cases hcov : pixelCovered a.2 a.1 tri
  · rw [if_pos hcov]
    rcases hb : get_barycentric_coords ((a.2 : ℚ), (a.1 : ℚ)) tri with _ | uvw
    · simp only [hb]
      exact ⟨trivial, trivial⟩
    · simp only [hb, updAt2]
      exact ⟨if_neg hne, if_neg hne⟩
  · rw [if_neg hcov]
    exact ⟨rfl, rfl⟩

lemma raster_foldl_frame {obj fid rid : ℤ} {fn : Q3}
    {tri triReal : Q2 × Q2 × Q2} {y x : ℤ} :
    ∀ (l : List (ℤ × ℤ)) (bufs : RastBufs), (y, x) ∉ l →
      (l.foldl (rasterPixel obj fid rid fn tri triReal) bufs).ownership y x
          = bufs.ownership y x ∧
      (l.foldl (rasterPixel obj fid rid fn tri triReal) bufs).uvData y x
          = bufs.uvData y x := by
  intro l
  induction l with
  | nil => exact fun bufs _ => ⟨rfl, rfl⟩
  | cons a l' ih =>
    intro bufs hmem
    have hne : ¬ (y = a.1 ∧ x = a.2) := by
      rintro ⟨h1, h2⟩
      exact hmem (by rw [List.mem_cons]; left; rw [Prod.ext_iff]; exact ⟨h1, h2⟩)
    have := ih (rasterPixel obj fid rid fn tri triReal bufs a)
      (fun hm => hmem (List.mem_cons_of_mem a hm))
    rw [List.foldl_cons]
    exact ⟨this.1.trans (rasterPixel_other hne).1,
           this.2.trans (rasterPixel_other hne).2⟩

lemma raster_foldl_written {obj fid rid : ℤ} {fn : Q3}
    {tri triReal : Q2 × Q2 × Q2} {y x : ℤ} {uvw : Q3}
    (hcov : pixelCovered x y tri = true)
    (hbary : get_barycentric_coords ((x : ℚ), (y : ℚ)) tri = some uvw) :
    ∀ (l : List (ℤ × ℤ)) (bufs : RastBufs), (y, x) ∈ l →
      (l.foldl (rasterPixel obj fid rid fn tri triReal) bufs).ownership y x
          = obj ∧
      (l.foldl (rasterPixel obj fid rid fn tri triReal) bufs).uvData y x
          = (triReal.1.1 * uvw.1 + triReal.2.1.1 * uvw.2.1
               + triReal.2.2.1 * uvw.2.2,
             triReal.1.2 * uvw.1 + triReal.2.1.2 * uvw.2.1
               + triReal.2.2.2 * uvw.2.2) := by
  intro l
  induction l with
  | nil => intro bufs hmem; exact absurd hmem (List.not_mem_nil _)
  | cons a l' ih =>
    intro bufs hmem
    rw [List.foldl_cons]
    by_cases hmem' : (y, x) ∈ l'
    · exact ih _ hmem'
    · have ha : a = (y, x) := by
        rcases List.mem_cons.mp hmem with h | h
        · exact h.symm
        · exact absurd h hmem'
      subst ha
      have hval : (rasterPixel obj fid rid fn tri triReal bufs (y, x)).ownership y x
            = obj ∧
          (rasterPixel obj fid rid fn tri triReal bufs (y, x)).uvData y x
            = (triReal.1.1 * uvw.1 + triReal.2.1.1 * uvw.2.1
                 + triReal.2.2.1 * uvw.2.2,
               triReal.1.2 * uvw.1 + triReal.2.1.2 * uvw.2.1
                 + triReal.2.2.2 * uvw.2.2) := by
        rw [rasterPixel]
        simp only [if_pos hcov, hbary]
        constructor
        · rw [updAt2, if_pos ⟨rfl, rfl⟩]
        · rw [updAt2, if_pos ⟨rfl, rfl⟩]
      exact ⟨(raster_foldl_frame l' _ hmem').1.trans hval.1,
             (raster_foldl_frame l' _ hmem').2.trans hval.2⟩

/-- C3, code bug: rasterize the triangle with pixel-space corners
`A=(0,0), B=(5,0), C=(0,5)` (UVs `(0,0), (1,0), (0,1)` scaled by `R-1 = 5`)
at resolution 6.  The pixel center `(x,y) = (2,1)` lies strictly inside with
exact barycentric weights `(2/5, 2/5, 1/5)` for `(A, B, C)` (verified by the
first conjunct), so the exact interpolated UV is `(2/5, 1/5)`.  The code
writes the owner, but stores the UV `(1/5, 2/5)`: `get_barycentric_coords`
builds `v0` from vertex `C` while the caller applies the returned weights to
the corner UVs in `(A, B, C)` order, swapping the second and third weights.
The stored UV differs from the exact interpolation by `1/5 > 1/1000`. -/
theorem c3_uv_interpolation_swapped :
    ((2 : ℚ) = (2/5) * 0 + (2/5) * 5 + (1/5) * 0 ∧
     (1 : ℚ) = (2/5) * 0 + (2/5) * 0 + (1/5) * 5 ∧
     (2/5 : ℚ) + 2/5 + 1/5 = 1) ∧
    (rasterizeTriangle 6 0 5 7 (0, 0, 1) ((0, 0), (5, 0), (0, 5))
        ((0, 0), (1, 0), (0, 1)) rastBufs0).ownership 1 2 = 0 ∧
    (rasterizeTriangle 6 0 5 7 (0, 0, 1) ((0, 0), (5, 0), (0, 5))
        ((0, 0), (1, 0), (0, 1)) rastBufs0).uvData 1 2 = (1/5, 2/5) ∧
    ((0 : ℚ) * (2/5) + 1 * (2/5) + 0 * (1/5),
     (0 : ℚ) * (2/5) + 0 * (2/5) + 1 * (1/5)) = (2/5, 1/5) ∧
    ¬ (|(1/5 : ℚ) - 2/5| ≤ 1/1000) := by
  have hbary : get_barycentric_coords ((2 : ℚ), (1 : ℚ))
      ((0, 0), (5, 0), (0, 5)) = some (2/5, 1/5, 2/5) := by
    rw [get_barycentric_coords]
    norm_num
  have hcov : pixelCovered 2 1 ((0, 0), (5, 0), (0, 5)) = true := by
    have hcenter : is_point_in_triangle_float (((2 : ℤ) : ℚ), ((1 : ℤ) : ℚ))
        ((0, 0), (5, 0), (0, 5)) = true := by
      rw [show (((2 : ℤ) : ℚ), ((1 : ℤ) : ℚ)) = ((2 : ℚ), (1 : ℚ)) by norm_num]
      rw [is_point_some hbary]
      simp only [Bool.and_eq_true, decide_eq_true_eq]
      norm_num
    rw [pixelCovered]
    simp only [hcenter, Bool.true_or, Bool.or_true]
  have hlist : triBBoxList 6 ((0, 0), (5, 0), (0, 5)) =
      (intRange 0 6).flatMap (fun y => (intRange 0 6).map (fun x => (y, x))) := by
    have hceil : ⌈(-1 : ℚ)⌉ = -1 := by
      rw [show (-1 : ℚ) = ((-1 : ℤ) : ℚ) by norm_num, Int.ceil_intCast]
    simp only [triBBoxList]
    norm_num [listMinQ, listMaxQ, pyInt, hceil]
  have hmem : ((1 : ℤ), (2 : ℤ)) ∈ triBBoxList 6 ((0, 0), (5, 0), (0, 5)) := by
    rw [hlist]
    decide
  have hmain := @raster_foldl_written 0 5 7 ((0 : ℚ), (0 : ℚ), (1 : ℚ))
    ((0, 0), (5, 0), (0, 5)) ((0, 0), (1, 0), (0, 1)) 1 2 (2/5, 1/5, 2/5)
    (by exact_mod_cast hcov) (by exact_mod_cast hbary) _ rastBufs0 hmem
  have habs : |(1/5 : ℚ) - 2/5| = 1/5 := by
    rw [show (1/5 : ℚ) - 2/5 = -(1/5) by norm_num, abs_neg,
      abs_of_nonneg (by norm_num : (0 : ℚ) ≤ 1/5)]
  refine ⟨by norm_num, ?_, ?_, by norm_num, by rw [habs]; norm_num⟩
  · rw [rasterizeTriangle]
    exact hmain.1
  · rw [rasterizeTriangle]
    rw [hmain.2]
    norm_num

lemma mval_le_card (D : Finset ℕ) (rk : ℕ → ℕ) (x : ℕ) :
    mval D rk x ≤ D.card :=
  Finset.card_filter_le _ _

lemma UFInv.mem_of_ne {F : ℕ} {D : Finset ℕ} {p rk : ℕ → ℕ}
    (inv : UFInv F D p rk) {x : ℕ} (hx : p x ≠ x) : x ∈ D := by
  by_contra h
  exact hx (inv.fixOut x h)

lemma mval_parent_lt {F : ℕ} {D : Finset ℕ} {p rk : ℕ → ℕ}
    (inv : UFInv F D p rk) {x : ℕ} (hx : p x ≠ x) :
    mval D rk (p x) < mval D rk x := by
  have hxD := inv.mem_of_ne hx
  have hpD := inv.closed x hxD
  have hrk := inv.rankLt x hx
  apply Finset.card_lt_card
  rw [Finset.ssubset_iff_of_subset]
  · refine ⟨p x, ?_, ?_⟩
    · exact Finset.mem_filter.mpr ⟨hpD, hrk⟩
    · intro hmem
      exact absurd (Finset.mem_filter.mp hmem).2 (lt_irrefl _)
  · intro y hy
    have := Finset.mem_filter.mp hy
    exact Finset.mem_filter.mpr ⟨this.1, lt_trans hrk this.2⟩

lemma mval_lt_fuel {F : ℕ} {D : Finset ℕ} {p rk : ℕ → ℕ}
    (inv : UFInv F D p rk) (x : ℕ) : mval D rk x < F :=
  lt_of_le_of_lt (mval_le_card D rk x) inv.cardLt

lemma mval_induction {F : ℕ} {D : Finset ℕ} {p rk : ℕ → ℕ}
    (inv : UFInv F D p rk) (P : ℕ → Prop)
    (h : ∀ x, (p x ≠ x → P (p x)) → P x) : ∀ x, P x := by
  have key : ∀ n x, mval D rk x ≤ n → P x := by
    intro n
    induction n with
    | zero =>
      intro x hx
      apply h
      intro hne
      have := mval_parent_lt inv hne
      omega
    | succ n ih =>
      intro x hx
      apply h
      intro hne
      have := mval_parent_lt inv hne
      exact ih _ (by omega)
  intro x
  exact key (mval D rk x) x le_rfl

lemma rootAux_succ (fuel : ℕ) (p : ℕ → ℕ) (x : ℕ) :
    rootAux (fuel + 1) p x = if p x = x then x else rootAux fuel p (p x) := rfl

lemma rootAux_of_fix {p : ℕ → ℕ} {x : ℕ} (hx : p x = x) :
    ∀ fuel, rootAux fuel p x = x := by
  intro fuel
  cases fuel with
  | zero => rfl
  | succ n => rw [rootAux_succ, if_pos hx]

lemma rootAux_irrel {F : ℕ} {D : Finset ℕ} {p rk : ℕ → ℕ}
    (inv : UFInv F D p rk) :
    ∀ n x, mval D rk x ≤ n → ∀ f₁ f₂, mval D rk x < f₁ → mval D rk x < f₂ →
      rootAux f₁ p x = rootAux f₂ p x := by
  intro n
  induction n with
  | zero =>
    intro x hx f₁ f₂ h₁ h₂
    obtain ⟨a, rfl⟩ : ∃ a, f₁ = a + 1 := ⟨f₁ - 1, by omega⟩
    obtain ⟨b, rfl⟩ : ∃ b, f₂ = b + 1 := ⟨f₂ - 1, by omega⟩
    by_cases hfix : p x = x
    · rw [rootAux_succ, rootAux_succ, if_pos hfix, if_pos hfix]
    · have := mval_parent_lt inv hfix
      omega
  | succ n ih =>
    intro x hx f₁ f₂ h₁ h₂
    obtain ⟨a, rfl⟩ : ∃ a, f₁ = a + 1 := ⟨f₁ - 1, by omega⟩
    obtain ⟨b, rfl⟩ : ∃ b, f₂ = b + 1 := ⟨f₂ - 1, by omega⟩
    by_cases hfix : p x = x
    · rw [rootAux_succ, rootAux_succ, if_pos hfix, if_pos hfix]
    · have hlt := mval_parent_lt inv hfix
      rw [rootAux_succ, rootAux_succ, if_neg hfix, if_neg hfix]
      exact ih (p x) (by omega) a b (by omega) (by omega)

lemma rootAux_step {F : ℕ} {D : Finset ℕ} {p rk : ℕ → ℕ}
    (inv : UFInv F D p rk) {x : ℕ} (hx : p x ≠ x) :
    rootAux F p x = rootAux F p (p x) := by
  have h1 := mval_lt_fuel inv x
  have h2 := mval_lt_fuel inv (p x)
  have hlt := mval_parent_lt inv hx
  obtain ⟨a, ha⟩ : ∃ a, F = a + 1 := ⟨F - 1, by omega⟩
  calc rootAux F p x = rootAux (a + 1) p x := by rw [ha]
    _ = rootAux a p (p x) := by rw [rootAux_succ, if_neg hx]
    _ = rootAux F p (p x) :=
        rootAux_irrel inv (mval D rk (p x)) (p x) le_rfl a F (by omega) h2

lemma rootAux_fix {F : ℕ} {D : Finset ℕ} {p rk : ℕ → ℕ}
    (inv : UFInv F D p rk) : ∀ x, p (rootAux F p x) = rootAux F p x := by
  apply mval_induction inv
  intro x ih
  by_cases hfix : p x = x
  · rw [rootAux_of_fix hfix]
    exact hfix
  · rw [rootAux_step inv hfix]
    exact ih hfix

lemma rootAux_mem {F : ℕ} {D : Finset ℕ} {p rk : ℕ → ℕ}
    (inv : UFInv F D p rk) : ∀ x, x ∈ D → rootAux F p x ∈ D := by
  apply mval_induction inv (fun x => x ∈ D → rootAux F p x ∈ D)
  intro x ih hxD
  by_cases hfix : p x = x
  · rw [rootAux_of_fix hfix]
    exact hxD
  · rw [rootAux_step inv hfix]
    exact ih hfix (inv.closed x hxD)

lemma rank_le_root {F : ℕ} {D : Finset ℕ} {p rk : ℕ → ℕ}
    (inv : UFInv F D p rk) : ∀ x, rk x ≤ rk (rootAux F p x) := by
  apply mval_induction inv
  intro x ih
  by_cases hfix : p x = x
  · rw [rootAux_of_fix hfix]
  · rw [rootAux_step inv hfix]
    exact le_trans (le_of_lt (inv.rankLt x hfix)) (ih hfix)

lemma rank_lt_root {F : ℕ} {D : Finset ℕ} {p rk : ℕ → ℕ}
    (inv : UFInv F D p rk) {x : ℕ} (hx : p x ≠ x) :
    rk x < rk (rootAux F p x) := by
  rw [rootAux_step inv hx]
  exact lt_of_lt_of_le (inv.rankLt x hx) (rank_le_root inv (p x))

lemma root_ne_self {F : ℕ} {D : Finset ℕ} {p rk : ℕ → ℕ}
    (inv : UFInv F D p rk) {x : ℕ} (hx : p x ≠ x) :
    rootAux F p x ≠ x := by
  intro h
  have := rank_lt_root inv hx
  rw [h] at this
  exact absurd this (lt_irrefl _)

lemma updFn_self (p : ℕ → ℕ) (a b : ℕ) : updFn p a b a = b := by
  simp [updFn]

lemma updFn_other (p : ℕ → ℕ) {a z : ℕ} (b : ℕ) (h : z ≠ a) :
    updFn p a b z = p z := by
  simp [updFn, h]

lemma reroot_inv {F : ℕ} {D : Finset ℕ} {p rk : ℕ → ℕ}
    (inv : UFInv F D p rk) {x₀ r : ℕ} (hr : rootAux F p x₀ = r) :
    UFInv F D (updFn p x₀ r) rk := by
  by_cases hfix : p x₀ = x₀
  · have hrx : r = x₀ := by rw [← hr, rootAux_of_fix hfix]
    refine ⟨?_, ?_, ?_, inv.cardLt⟩
    · intro y hyD
      by_cases hy : y = x₀
      · rw [hy, updFn_self, hrx]
        exact hy ▸ hyD
      · rw [updFn_other _ _ hy]
        exact inv.closed y hyD
    · intro y hyD
      by_cases hy : y = x₀
      · rw [hy, updFn_self, hrx]
      · rw [updFn_other _ _ hy]
        exact inv.fixOut y hyD
    · intro y hy
      by_cases hyx : y = x₀
      · exfalso
        apply hy
        rw [hyx, updFn_self, hrx]
      · rw [updFn_other _ _ hyx] at hy ⊢
        exact inv.rankLt y hy
  · have hx₀D := inv.mem_of_ne hfix
    have hrD : r ∈ D := hr ▸ rootAux_mem inv x₀ hx₀D
    refine ⟨?_, ?_, ?_, inv.cardLt⟩
    · intro y hyD
      by_cases hy : y = x₀
      · rw [hy, updFn_self]
        exact hrD
      · rw [updFn_other _ _ hy]
        exact inv.closed y hyD
    · intro y hyD
      by_cases hy : y = x₀
      · exact absurd (hy ▸ hx₀D) hyD
      · rw [updFn_other _ _ hy]
        exact inv.fixOut y hyD
    · intro y hy
      by_cases hyx : y = x₀
      · rw [hyx, updFn_self]
        exact hr ▸ rank_lt_root inv hfix
      · rw [updFn_other _ _ hyx] at hy ⊢
        exact inv.rankLt y hy

lemma reroot_root {F : ℕ} {D : Finset ℕ} {p rk : ℕ → ℕ}
    (inv : UFInv F D p rk) {x₀ r : ℕ} (hr : rootAux F p x₀ = r) :
    ∀ y, rootAux F (updFn p x₀ r) y = rootAux F p y := by
  have inv' := reroot_inv inv hr
  apply mval_induction inv
  intro y ih
  by_cases hyx : y = x₀
  · rw [hyx]
    by_cases hfix : p x₀ = x₀
    · have hrx : r = x₀ := by rw [← hr, rootAux_of_fix hfix]
      have h1 : updFn p x₀ r x₀ = x₀ := by rw [updFn_self, hrx]
      rw [rootAux_of_fix h1, rootAux_of_fix hfix]
    · have hrne : r ≠ x₀ := hr ▸ root_ne_self inv hfix
      have hstep : updFn p x₀ r x₀ ≠ x₀ := by
        rw [updFn_self]
        exact hrne
      rw [rootAux_step inv' hstep, updFn_self]
      have hfixr : updFn p x₀ r r = r := by
        rw [updFn_other _ _ hrne]
        exact hr ▸ rootAux_fix inv x₀
      rw [rootAux_of_fix hfixr, hr]
  · by_cases hfix : p y = y
    · have h1 : updFn p x₀ r y = y := by
        rw [updFn_other _ _ hyx]
        exact hfix
      rw [rootAux_of_fix h1, rootAux_of_fix hfix]
    · have hstep : updFn p x₀ r y ≠ y := by
        rw [updFn_other _ _ hyx]
        exact hfix
      rw [rootAux_step inv' hstep, updFn_other _ _ hyx, ih hfix,
        ← rootAux_step inv hfix]

lemma link_inv {F : ℕ} {D : Finset ℕ} {p rk : ℕ → ℕ} {ra rb : ℕ}
    (inv : UFInv F D p rk)
    (hne : rb ≠ ra) (hraD : ra ∈ D) (hrbD : rb ∈ D)
    (hrk : rk rb < rk ra) :
    UFInv F D (updFn p rb ra) rk := by
  refine ⟨?_, ?_, ?_, inv.cardLt⟩
  · intro y hyD
    by_cases hy : y = rb
    · rw [hy, updFn_self]
      exact hraD
    · rw [updFn_other _ _ hy]
      exact inv.closed y hyD
  · intro y hyD
    by_cases hy : y = rb
    · exact absurd (hy ▸ hrbD) hyD
    · rw [updFn_other _ _ hy]
      exact inv.fixOut y hyD
  · intro y hy
    by_cases hyb : y = rb
    · rw [hyb, updFn_self]
      exact hrk
    · rw [updFn_other _ _ hyb] at hy ⊢
      exact inv.rankLt y hy

lemma link_inv_bump {F : ℕ} {D : Finset ℕ} {p rk : ℕ → ℕ} {ra rb : ℕ}
    (inv : UFInv F D p rk)
    (hra : p ra = ra) (hne : rb ≠ ra)
    (hraD : ra ∈ D) (hrbD : rb ∈ D) (hge : ¬ rk ra < rk rb) :
    UFInv F D (updFn p rb ra)
      (fun z => if z = ra ∧ rk ra = rk rb then rk z + 1 else rk z) := by
  refine ⟨?_, ?_, ?_, inv.cardLt⟩
  · intro y hyD
    by_cases hy : y = rb
    · rw [hy, updFn_self]
      exact hraD
    · rw [updFn_other _ _ hy]
      exact inv.closed y hyD
  · intro y hyD
    by_cases hy : y = rb
    · exact absurd (hy ▸ hrbD) hyD
    · rw [updFn_other _ _ hy]
      exact inv.fixOut y hyD
  · intro y hy
    by_cases hyb : y = rb
    · rw [hyb, updFn_self] at hy ⊢
      have hyne : ¬ (rb = ra ∧ rk ra = rk rb) := fun hc => hne hc.1
      rw [if_neg hyne]
      by_cases heq : rk ra = rk rb
      · rw [if_pos ⟨rfl, heq⟩]
        omega
      · rw [if_neg (fun hc => heq hc.2)]
        omega
    · rw [updFn_other _ _ hyb] at hy ⊢
      have h₁ := inv.rankLt y hy
      have hyra : ¬ (y = ra ∧ rk ra = rk rb) := by
        rintro ⟨rfl, _⟩
        exact hy hra
      rw [if_neg hyra]
      by_cases hp : p y = ra ∧ rk ra = rk rb
      · rw [if_pos hp]
        omega
      · rw [if_neg hp]
        exact h₁

lemma link_root {F : ℕ} {D : Finset ℕ} {p rk rk' : ℕ → ℕ} {ra rb : ℕ}
    (inv : UFInv F D p rk)
    (inv' : UFInv F D (updFn p rb ra) rk')
    (hra : p ra = ra) (hrb : p rb = rb) (hne : rb ≠ ra) :
    ∀ y, rootAux F (updFn p rb ra) y
        = if rootAux F p y = rb then ra else rootAux F p y := by
  apply mval_induction inv
  intro y ih
  by_cases hyb : y = rb
  · rw [hyb]
    have hstep : updFn p rb ra rb ≠ rb := by
      rw [updFn_self]
      exact Ne.symm hne
    rw [rootAux_step inv' hstep, updFn_self]
    have hfixa : updFn p rb ra ra = ra := by
      rw [updFn_other _ _ (Ne.symm hne)]
      exact hra
    rw [rootAux_of_fix hfixa, rootAux_of_fix hrb, if_pos rfl]
  · by_cases hfix : p y = y
    · have h1 : updFn p rb ra y = y := by
        rw [updFn_other _ _ hyb]
        exact hfix
      rw [rootAux_of_fix h1, rootAux_of_fix hfix, if_neg hyb]
    · have hstep : updFn p rb ra y ≠ y := by
        rw [updFn_other _ _ hyb]
        exact hfix
      rw [rootAux_step inv' hstep, updFn_other _ _ hyb, ih hfix,
        ← rootAux_step inv hfix]

lemma findAux_spec {F : ℕ} {D : Finset ℕ} {p rk : ℕ → ℕ}
    (inv : UFInv F D p rk) :
    ∀ fuel x, mval D rk x < fuel →
      (findAux fuel p x).1 = rootAux F p x ∧
      UFInv F D (findAux fuel p x).2 rk ∧
      ∀ y, rootAux F (findAux fuel p x).2 y = rootAux F p y := by
  intro fuel
  induction fuel with
  | zero =>
    intro x hx
    omega
  | succ n ih =>
    intro x hx
    by_cases hfix : p x = x
    · rw [show findAux (n + 1) p x = (x, p) from by rw [findAux, if_pos hfix]]
      exact ⟨(rootAux_of_fix hfix F).symm, inv, fun y => rfl⟩
    · have hm : mval D rk (p x) < n := by
        have := mval_parent_lt inv hfix
        omega
      obtain ⟨h1, h2, h3⟩ := ih (p x) hm
      have hshape : findAux (n + 1) p x =
          ((findAux n p (p x)).1,
           updFn (findAux n p (p x)).2 x (findAux n p (p x)).1) := by
        rw [findAux, if_neg hfix]
        rfl
      rw [hshape]
      have hroot : (findAux n p (p x)).1 = rootAux F p x := by
        rw [h1, ← rootAux_step inv hfix]
      have hr2 : rootAux F (findAux n p (p x)).2 x = (findAux n p (p x)).1 := by
        rw [h3 x, hroot]
      refine ⟨hroot, reroot_inv h2 hr2, ?_⟩
      intro y
      rw [reroot_root h2 hr2 y, h3 y]

/-- The union-find invariant for a full state: parent and rank together. -/
def UFGood (F : ℕ) (D : Finset ℕ) (uf : UF) : Prop :=
  UFInv F D uf.parent uf.rank

lemma collapse_eq_iff {r₁ r₂ : ℕ} (hne : r₁ ≠ r₂) (s t : ℕ) :
    (if s = r₁ then r₂ else s) = (if t = r₁ then r₂ else t) ↔
      (s = t ∨ (s = r₁ ∧ t = r₂) ∨ (s = r₂ ∧ t = r₁)) := by
  by_cases hs : s = r₁ <;> by_cases ht : t = r₁
  · rw [if_pos hs, if_pos ht]
    constructor
    · intro h
      exact Or.inl (hs.trans ht.symm)
    · intro h
      rfl
  · rw [if_pos hs, if_neg ht]
    constructor
    · intro h
      exact Or.inr (Or.inl ⟨hs, h.symm⟩)
    · rintro (h | ⟨h1, h2⟩ | ⟨h1, h2⟩)
      · exact absurd (h ▸ hs) ht
      · exact h2.symm
      · exact absurd h2 ht
  · rw [if_neg hs, if_pos ht]
    constructor
    · intro h
      exact Or.inr (Or.inr ⟨h, ht⟩)
    · rintro (h | ⟨h1, h2⟩ | ⟨h1, h2⟩)
      · exact absurd (h.trans ht) hs
      · exact absurd h1 hs
      · exact h1
  · rw [if_neg hs, if_neg ht]
    constructor
    · exact fun h => Or.inl h
    · rintro (h | ⟨h1, h2⟩ | ⟨h1, h2⟩)
      · exact h
      · exact absurd h1 hs
      · exact absurd h2 ht

lemma unionOp_spec {F : ℕ} {D : Finset ℕ} {uf : UF}
    (inv : UFGood F D uf) {a b : ℕ} (ha : a ∈ D) (hb : b ∈ D) :
    UFGood F D (unionOp F uf a b) ∧
    ∀ x y, sameRoot F (unionOp F uf a b).parent x y ↔
      (sameRoot F uf.parent x y ∨
       (sameRoot F uf.parent x a ∧ sameRoot F uf.parent b y) ∨
       (sameRoot F uf.parent x b ∧ sameRoot F uf.parent a y)) := by
  obtain ⟨hfa1, hfa2, hfa3⟩ :=
    findAux_spec inv F a (mval_lt_fuel inv a)
  obtain ⟨hfb1, hfb2, hfb3⟩ :=
    findAux_spec hfa2 F b (mval_lt_fuel hfa2 b)
  set p₂ := (findAux F (findAux F uf.parent a).2 b).2 with hp₂
  set ra := (findAux F uf.parent a).1 with hra
  set rb := (findAux F (findAux F uf.parent a).2 b).1 with hrb
  have hroots : ∀ y, rootAux F p₂ y = rootAux F uf.parent y := by
    intro y
    rw [hfb3 y, hfa3 y]
  have hra' : ra = rootAux F uf.parent a := hfa1
  have hrb' : rb = rootAux F uf.parent b := by
    rw [hfb1, hfa3 b]
  have hp₂ra : p₂ ra = ra := by
    have : rootAux F p₂ a = ra := by rw [hroots a, hra']
    have hfixa := rootAux_fix hfb2 a
    rw [this] at hfixa
    exact hfixa
  have hp₂rb : p₂ rb = rb := by
    have : rootAux F p₂ b = rb := by rw [hroots b, hrb']
    have hfixb := rootAux_fix hfb2 b
    rw [this] at hfixb
    exact hfixb
  have hraD : ra ∈ D := hra' ▸ rootAux_mem inv a ha
  have hrbD : rb ∈ D := hrb' ▸ rootAux_mem inv b hb
  have hrootxa : ∀ x, (rootAux F uf.parent x = ra ↔ sameRoot F uf.parent x a) := by
    intro x
    rw [sameRoot, hra']
  have hrootxb : ∀ x, (rootAux F uf.parent x = rb ↔ sameRoot F uf.parent x b) := by
    intro x
    rw [sameRoot, hrb']
  have hrootay : ∀ y, (rootAux F uf.parent y = ra ↔ sameRoot F uf.parent a y) := by
    intro y
    rw [sameRoot, hra']
    exact eq_comm
  have hrootby : ∀ y, (rootAux F uf.parent y = rb ↔ sameRoot F uf.parent b y) := by
    intro y
    rw [sameRoot, hrb']
    exact eq_comm
  by_cases heq : ra = rb
  · have hop : unionOp F uf a b = { parent := p₂, rank := uf.rank } := by
      rw [unionOp]
      simp only [← hra, ← hrb, ← hp₂]
      rw [if_pos heq]
    rw [hop]
    refine ⟨hfb2, ?_⟩
    intro x y
    have hsame : sameRoot F p₂ x y ↔ sameRoot F uf.parent x y := by
      rw [sameRoot, sameRoot, hroots x, hroots y]
    rw [hsame]
    constructor
    · intro h
      exact Or.inl h
    · rintro (h | ⟨h1, h2⟩ | ⟨h1, h2⟩)
      · exact h
      · rw [sameRoot] at h1 h2 ⊢
        rw [h1, ← hra', heq, hrb', h2]
      · rw [sameRoot] at h1 h2 ⊢
        rw [h1, ← hrb', ← heq, hra', h2]
  · by_cases hrank : uf.rank ra < uf.rank rb
    · have hop : unionOp F uf a b =
          { parent := updFn p₂ ra rb, rank := uf.rank } := by
        rw [unionOp]
        simp only [← hra, ← hrb, ← hp₂]
        rw [if_neg heq, if_pos hrank]
        rfl
      have hinvrk : UFInv F D p₂ uf.rank := hfb2
      have hinv' : UFInv F D (updFn p₂ ra rb) uf.rank :=
        link_inv hinvrk heq hrbD hraD hrank
      rw [hop]
      refine ⟨hinv', ?_⟩
      intro x y
      have hlr := link_root hinvrk hinv' hp₂rb hp₂ra heq
      rw [sameRoot, hlr x, hlr y, hroots x, hroots y]
      rw [collapse_eq_iff (fun h => heq h) (rootAux F uf.parent x)
        (rootAux F uf.parent y)]
      rw [sameRoot]
      constructor
      · rintro (h | ⟨h1, h2⟩ | ⟨h1, h2⟩)
        · exact Or.inl h
        · exact Or.inr (Or.inl ⟨(hrootxa x).mp h1, (hrootby y).mp h2⟩)
        · exact Or.inr (Or.inr ⟨(hrootxb x).mp h1, (hrootay y).mp h2⟩)
      · rintro (h | ⟨h1, h2⟩ | ⟨h1, h2⟩)
        · exact Or.inl h
        · exact Or.inr (Or.inl ⟨(hrootxa x).mpr h1, (hrootby y).mpr h2⟩)
        · exact Or.inr (Or.inr ⟨(hrootxb x).mpr h1, (hrootay y).mpr h2⟩)
    · have hop : unionOp F uf a b =
          { parent := updFn p₂ rb ra,
            rank := fun z => if z = ra ∧ uf.rank ra = uf.rank rb
                             then uf.rank z + 1 else uf.rank z } := by
        rw [unionOp]
        simp only [← hra, ← hrb, ← hp₂]
        rw [if_neg heq, if_neg hrank]
        rfl
      have hinvrk : UFInv F D p₂ uf.rank := hfb2
      have hinv' := link_inv_bump hinvrk hp₂ra (fun h => heq h.symm) hraD hrbD hrank
      rw [hop]
      refine ⟨hinv', ?_⟩
      intro x y
      have hlr := link_root hinvrk hinv' hp₂ra hp₂rb (fun h => heq h.symm)
      rw [sameRoot, hlr x, hlr y, hroots x, hroots y]
      rw [collapse_eq_iff (fun h => heq h.symm) (rootAux F uf.parent x)
        (rootAux F uf.parent y)]
      rw [sameRoot]
      constructor
      · rintro (h | ⟨h1, h2⟩ | ⟨h1, h2⟩)
        · exact Or.inl h
        · exact Or.inr (Or.inr ⟨(hrootxb x).mp h1, (hrootay y).mp h2⟩)
        · exact Or.inr (Or.inl ⟨(hrootxa x).mp h1, (hrootby y).mp h2⟩)
      · rintro (h | ⟨h1, h2⟩ | ⟨h1, h2⟩)
        · exact Or.inl h
        · exact Or.inr (Or.inr ⟨(hrootxa x).mpr h1, (hrootby y).mpr h2⟩)
        · exact Or.inr (Or.inl ⟨(hrootxb x).mpr h1, (hrootay y).mpr h2⟩)

lemma Connected.closure {R S : ℕ → ℕ → Prop}
    (h : ∀ a b, R a b → Connected S a b) :
    ∀ {x y}, Connected R x y → Connected S x y := by
  intro x y hc
  induction hc with
  | rel hr => exact h _ _ hr
  | refl a => exact Connected.refl a
  | symm _ ih => exact Connected.symm ih
  | trans _ _ ih₁ ih₂ => exact Connected.trans ih₁ ih₂

lemma Connected.congr {R S : ℕ → ℕ → Prop} (h : ∀ a b, R a b ↔ S a b)
    {x y : ℕ} : Connected R x y ↔ Connected S x y :=
  ⟨Connected.closure (fun a b hr => Connected.rel ((h a b).mp hr)),
   Connected.closure (fun a b hs => Connected.rel ((h a b).mpr hs))⟩

lemma connected_of_equivalence {R : ℕ → ℕ → Prop}
    (hrefl : ∀ a, R a a) (hsymm : ∀ {a b}, R a b → R b a)
    (htrans : ∀ {a b c}, R a b → R b c → R a c) {x y : ℕ} :
    Connected R x y ↔ R x y := by
  constructor
  · intro hc
    induction hc with
    | rel hr => exact hr
    | refl a => exact hrefl a
    | symm _ ih => exact hsymm ih
    | trans _ _ ih₁ ih₂ => exact htrans ih₁ ih₂
  · exact Connected.rel

lemma sameRoot_refl (F : ℕ) (p : ℕ → ℕ) (x : ℕ) : sameRoot F p x x := rfl

lemma sameRoot_symm {F : ℕ} {p : ℕ → ℕ} {x y : ℕ} (h : sameRoot F p x y) :
    sameRoot F p y x := h.symm

lemma sameRoot_trans {F : ℕ} {p : ℕ → ℕ} {x y z : ℕ}
    (h₁ : sameRoot F p x y) (h₂ : sameRoot F p y z) : sameRoot F p x z :=
  h₁.trans h₂

lemma foldUnion_spec {F : ℕ} {D : Finset ℕ} :
    ∀ (prs : List (ℕ × ℕ)) (uf : UF), UFGood F D uf →
      (∀ pr ∈ prs, pr.1 ∈ D ∧ pr.2 ∈ D) →
      UFGood F D (prs.foldl (fun u pr => unionOp F u pr.1 pr.2) uf) ∧
      ∀ x y,
        sameRoot F (prs.foldl (fun u pr => unionOp F u pr.1 pr.2) uf).parent x y
        ↔ Connected (fun a b => sameRoot F uf.parent a b ∨ (a, b) ∈ prs) x y := by
  intro prs
  induction prs with
  | nil =>
    intro uf inv _
    refine ⟨inv, ?_⟩
    intro x y
    rw [List.foldl_nil]
    rw [connected_of_equivalence
      (fun a => Or.inl (sameRoot_refl F uf.parent a))
      (fun h => by
        rcases h with h | h
        · exact Or.inl (sameRoot_symm h)
        · exact absurd h (List.not_mem_nil _))
      (fun h₁ h₂ => by
        rcases h₁ with h₁ | h₁
        · rcases h₂ with h₂ | h₂
          · exact Or.inl (sameRoot_trans h₁ h₂)
          · exact absurd h₂ (List.not_mem_nil _)
        · exact absurd h₁ (List.not_mem_nil _))]
    constructor
    · exact Or.inl
    · rintro (h | h)
      · exact h
      · exact absurd h (List.not_mem_nil _)
  | cons pr rest ih =>
    intro uf inv hprs
    have hpr := hprs pr (List.mem_cons_self pr rest)
    obtain ⟨inv', hchar⟩ := unionOp_spec inv hpr.1 hpr.2
    have hrest : ∀ q ∈ rest, q.1 ∈ D ∧ q.2 ∈ D :=
      fun q hq => hprs q (List.mem_cons_of_mem pr hq)
    obtain ⟨invf, hiff⟩ := ih (unionOp F uf pr.1 pr.2) inv' hrest
    rw [List.foldl_cons]
    refine ⟨invf, ?_⟩
    intro x y
    rw [hiff x y]
    constructor
    · apply Connected.closure
      intro a b hab
      rcases hab with hab | hab
      · rcases (hchar a b).mp hab with h | ⟨h1, h2⟩ | ⟨h1, h2⟩
        · exact Connected.rel (Or.inl h)
        · refine Connected.trans (Connected.rel (Or.inl h1))
            (Connected.trans
              (Connected.rel (Or.inr (by
                rw [show (pr.1, pr.2) = pr from rfl]
                exact List.mem_cons_self pr rest)))
              (Connected.rel (Or.inl h2)))
        · refine Connected.trans (Connected.rel (Or.inl h1))
            (Connected.trans
              (Connected.symm (Connected.rel (Or.inr (by
                rw [show (pr.1, pr.2) = pr from rfl]
                exact List.mem_cons_self pr rest))))
              (Connected.rel (Or.inl h2)))
      · exact Connected.rel (Or.inr (List.mem_cons_of_mem pr hab))
    · apply Connected.closure
      intro a b hab
      rcases hab with hab | hab
      · exact Connected.rel (Or.inl ((hchar a b).mpr (Or.inl hab)))
      · rcases List.mem_cons.mp hab with hab | hab
        · refine Connected.rel (Or.inl ((hchar a b).mpr (Or.inr (Or.inl ⟨?_, ?_⟩))))
          · rw [show pr.1 = a from by rw [← hab]]
            exact sameRoot_refl F uf.parent a
          · rw [show pr.2 = b from by rw [← hab]]
            exact sameRoot_refl F uf.parent b
        · exact Connected.rel (Or.inr hab)

lemma uf0_good {F : ℕ} {D : Finset ℕ} (hF : D.card < F) : UFGood F D uf0 := by
  refine ⟨?_, ?_, ?_, hF⟩
  · intro x hx
    exact hx
  · intro x _
    rfl
  · intro x hx
    exact absurd rfl hx

lemma sameRoot_uf0 {F : ℕ} {x y : ℕ} :
    sameRoot F uf0.parent x y ↔ x = y := by
  rw [sameRoot, @rootAux_of_fix uf0.parent x rfl, @rootAux_of_fix uf0.parent y rfl]

lemma resolveAux_spec {F : ℕ} {D : Finset ℕ} {rk : ℕ → ℕ} :
    ∀ (l : List (ℕ × ℕ)) (p : ℕ → ℕ), UFInv F D p rk →
      (resolveAux F l p).1 = l.map (fun e => (e.1, rootAux F p e.2)) := by
  intro l
  induction l with
  | nil => intro p _; rfl
  | cons e rest ih =>
    intro p inv
    obtain ⟨h1, h2, h3⟩ := findAux_spec inv F e.2 (mval_lt_fuel inv e.2)
    have hshape : resolveAux F (e :: rest) p =
        ((e.1, (findAux F p e.2).1) :: (resolveAux F rest (findAux F p e.2).2).1,
         (resolveAux F rest (findAux F p e.2).2).2) := by
      rw [show (e : ℕ × ℕ) = (e.1, e.2) from rfl, resolveAux]
    rw [hshape]
    simp only [List.map_cons]
    rw [ih (findAux F p e.2).2 h2, h1]
    congr 1
    apply List.map_congr_left
    intro q _
    rw [h3 q.2]

lemma lookup_cons_self {β : Type} (es : List (ℕ × β)) (k : ℕ) (b : β) :
    ((k, b) :: es).lookup k = some b := by
  simp [List.lookup]

lemma lookup_cons_ne {β : Type} (es : List (ℕ × β)) {k k' : ℕ} (b : β)
    (h : k' ≠ k) : ((k, b) :: es).lookup k' = es.lookup k' := by
  rw [List.lookup_cons]
  rw [show (k' == k) = false from beq_eq_false_iff_ne.mpr h]

lemma mem_of_lookup_eq_some {β : Type} {es : List (ℕ × β)} {k : ℕ} {c : β}
    (h : es.lookup k = some c) : (k, c) ∈ es := by
  rcases List.lookup_eq_some_iff.mp h with ⟨l1, l2, rfl, _⟩
  exact List.mem_append.mpr (Or.inr (List.mem_cons_self _ _))

lemma compactAux_remap_mono :
    ∀ (l remap : List (ℕ × ℕ)) (nxt r c : ℕ), remap.lookup r = some c →
      (compactAux l remap nxt).2.1.lookup r = some c := by
  intro l
  induction l with
  | nil => intro remap nxt r c h; exact h
  | cons e rest ih =>
    intro remap nxt r c h
    rcases hl : remap.lookup e.2 with _ | c'
    · have hne : r ≠ e.2 := by
        intro hc
        rw [← hc, h] at hl
        exact Option.noConfusion hl
      have hshape : compactAux (e :: rest) remap nxt =
          ((e.1, nxt) :: (compactAux rest ((e.2, nxt) :: remap) (nxt + 1)).1,
           (compactAux rest ((e.2, nxt) :: remap) (nxt + 1)).2) := by
        rw [show (e : ℕ × ℕ) = (e.1, e.2) from rfl, compactAux, hl]
      rw [hshape]
      apply ih
      rw [lookup_cons_ne _ _ hne]
      exact h
    · have hshape : compactAux (e :: rest) remap nxt =
          ((e.1, c') :: (compactAux rest remap nxt).1,
           (compactAux rest remap nxt).2) := by
        rw [show (e : ℕ × ℕ) = (e.1, e.2) from rfl, compactAux, hl]
      rw [hshape]
      exact ih remap nxt r c h

lemma compactAux_lookup_dom :
    ∀ (l remap : List (ℕ × ℕ)) (nxt : ℕ) (e : ℕ × ℕ), e ∈ l →
      ∃ c, (compactAux l remap nxt).2.1.lookup e.2 = some c := by
  intro l
  induction l with
  | nil => intro remap nxt e he; exact absurd he (List.not_mem_nil e)
  | cons e₀ rest ih =>
    intro remap nxt e he
    rcases hl : remap.lookup e₀.2 with _ | c'
    · have hshape : compactAux (e₀ :: rest) remap nxt =
          ((e₀.1, nxt) :: (compactAux rest ((e₀.2, nxt) :: remap) (nxt + 1)).1,
           (compactAux rest ((e₀.2, nxt) :: remap) (nxt + 1)).2) := by
        rw [show (e₀ : ℕ × ℕ) = (e₀.1, e₀.2) from rfl, compactAux, hl]
      rw [hshape]
      rcases List.mem_cons.mp he with he | he
      · refine ⟨nxt, ?_⟩
        rw [he]
        apply compactAux_remap_mono
        exact lookup_cons_self _ _ _
      · exact ih _ _ e he
    · have hshape : compactAux (e₀ :: rest) remap nxt =
          ((e₀.1, c') :: (compactAux rest remap nxt).1,
           (compactAux rest remap nxt).2) := by
        rw [show (e₀ : ℕ × ℕ) = (e₀.1, e₀.2) from rfl, compactAux, hl]
      rw [hshape]
      rcases List.mem_cons.mp he with he | he
      · refine ⟨c', ?_⟩
        rw [he]
        exact compactAux_remap_mono rest remap nxt e₀.2 c' hl
      · exact ih _ _ e he

lemma compactAux_assignments :
    ∀ (l remap : List (ℕ × ℕ)) (nxt : ℕ),
      (compactAux l remap nxt).1 =
        l.map (fun e => (e.1, ((compactAux l remap nxt).2.1.lookup e.2).getD 0)) := by
  intro l
  induction l with
  | nil => intro remap nxt; rfl
  | cons e₀ rest ih =>
    intro remap nxt
    rcases hl : remap.lookup e₀.2 with _ | c'
    · have hshape : compactAux (e₀ :: rest) remap nxt =
          ((e₀.1, nxt) :: (compactAux rest ((e₀.2, nxt) :: remap) (nxt + 1)).1,
           (compactAux rest ((e₀.2, nxt) :: remap) (nxt + 1)).2) := by
        rw [show (e₀ : ℕ × ℕ) = (e₀.1, e₀.2) from rfl, compactAux, hl]
      rw [hshape]
      simp only [List.map_cons]
      have hself : ((compactAux rest ((e₀.2, nxt) :: remap) (nxt + 1)).2.1.lookup
          e₀.2).getD 0 = nxt := by
        rw [compactAux_remap_mono rest _ _ e₀.2 nxt (lookup_cons_self _ _ _)]
        rfl
      rw [show ((e₀.1, nxt) : ℕ × ℕ) = (e₀.1,
        ((compactAux rest ((e₀.2, nxt) :: remap) (nxt + 1)).2.1.lookup
          e₀.2).getD 0) from by rw [hself]]
      congr 1
      exact ih ((e₀.2, nxt) :: remap) (nxt + 1)
    · have hshape : compactAux (e₀ :: rest) remap nxt =
          ((e₀.1, c') :: (compactAux rest remap nxt).1,
           (compactAux rest remap nxt).2) := by
        rw [show (e₀ : ℕ × ℕ) = (e₀.1, e₀.2) from rfl, compactAux, hl]
      rw [hshape]
      simp only [List.map_cons]
      have hself : ((compactAux rest remap nxt).2.1.lookup e₀.2).getD 0 = c' := by
        rw [compactAux_remap_mono rest remap nxt e₀.2 c' hl]
        rfl
      rw [show ((e₀.1, c') : ℕ × ℕ) = (e₀.1,
        ((compactAux rest remap nxt).2.1.lookup e₀.2).getD 0) from by rw [hself]]
      congr 1
      exact ih remap nxt

lemma compactAux_vals :
    ∀ (l remap : List (ℕ × ℕ)) (nxt base : ℕ),
      remap.map Prod.snd = (List.range' base (nxt - base)).reverse → base ≤ nxt →
      (compactAux l remap nxt).2.1.map Prod.snd
          = (List.range' base ((compactAux l remap nxt).2.2 - base)).reverse ∧
        base ≤ (compactAux l remap nxt).2.2 ∧ nxt ≤ (compactAux l remap nxt).2.2 := by
  intro l
  induction l with
  | nil =>
    intro remap nxt base h hb
    exact ⟨h, hb, le_rfl⟩
  | cons e₀ rest ih =>
    intro remap nxt base h hb
    rcases hl : remap.lookup e₀.2 with _ | c'
    · have hshape : compactAux (e₀ :: rest) remap nxt =
          ((e₀.1, nxt) :: (compactAux rest ((e₀.2, nxt) :: remap) (nxt + 1)).1,
           (compactAux rest ((e₀.2, nxt) :: remap) (nxt + 1)).2) := by
        rw [show (e₀ : ℕ × ℕ) = (e₀.1, e₀.2) from rfl, compactAux, hl]
      rw [hshape]
      have hmap : ((e₀.2, nxt) :: remap).map Prod.snd
          = (List.range' base (nxt + 1 - base)).reverse := by
        simp only [List.map_cons]
        rw [h, show nxt + 1 - base = (nxt - base) + 1 from by omega,
          List.range'_concat, List.reverse_append, List.reverse_singleton,
          List.singleton_append, show base + 1 * (nxt - base) = nxt from by omega]
      obtain ⟨h1, h2, h3⟩ := ih ((e₀.2, nxt) :: remap) (nxt + 1) base hmap (by omega)
      refine ⟨h1, h2, ?_⟩
      show nxt ≤ (compactAux rest ((e₀.2, nxt) :: remap) (nxt + 1)).2.2
      omega
    · have hshape : compactAux (e₀ :: rest) remap nxt =
          ((e₀.1, c') :: (compactAux rest remap nxt).1,
           (compactAux rest remap nxt).2) := by
        rw [show (e₀ : ℕ × ℕ) = (e₀.1, e₀.2) from rfl, compactAux, hl]
      rw [hshape]
      exact ih remap nxt base h hb

lemma compactAux_lookup_inj {l remap : List (ℕ × ℕ)} {nxt base : ℕ}
    (h : remap.map Prod.snd = (List.range' base (nxt - base)).reverse)
    (hb : base ≤ nxt) {r₁ r₂ c : ℕ}
    (h₁ : (compactAux l remap nxt).2.1.lookup r₁ = some c)
    (h₂ : (compactAux l remap nxt).2.1.lookup r₂ = some c) : r₁ = r₂ := by
  obtain ⟨hvals, _, _⟩ := compactAux_vals l remap nxt base h hb
  have hnd : ((compactAux l remap nxt).2.1.map Prod.snd).Nodup := by
    rw [hvals, List.nodup_reverse]
    exact List.nodup_range' _ _
  have hm₁ := mem_of_lookup_eq_some h₁
  have hm₂ := mem_of_lookup_eq_some h₂
  have := List.inj_on_of_nodup_map hnd hm₁ hm₂ rfl
  exact congrArg Prod.fst this

lemma lookup_map_val {β : Type} :
    ∀ (l : List (ℕ × ℕ)) (g : ℕ → β) (k : ℕ),
      (l.map (fun e => (e.1, g e.2))).lookup k = Option.map g (l.lookup k) := by
  intro l
  induction l with
  | nil => intro g k; rfl
  | cons e rest ih =>
    obtain ⟨k', v⟩ := e
    intro g k
    simp only [List.map_cons]
    by_cases hk : k = k'
    · rw [hk, lookup_cons_self, lookup_cons_self]
      rfl
    · rw [lookup_cons_ne _ _ hk, lookup_cons_ne _ _ hk]
      exact ih g k

lemma regionMap0_lookup :
    ∀ (vf : List Face) (fo ro i : ℕ), (vf.map Face.index).Nodup →
      i ∈ vf.map Face.index →
      (regionMap0 vf fo ro).lookup (i + fo)
        = some (ro + (vf.map Face.index).indexOf i) := by
  intro vf
  induction vf with
  | nil => intro fo ro i _ hi; exact absurd hi (List.not_mem_nil i)
  | cons f rest ih =>
    intro fo ro i hnd hi
    simp only [List.map_cons] at hnd hi ⊢
    by_cases hif : i = f.index
    · rw [regionMap0, hif, lookup_cons_self, List.indexOf_cons_self]
      rfl
    · have hine : i + fo ≠ f.index + fo := by omega
      rw [regionMap0, lookup_cons_ne _ _ hine]
      have hi' : i ∈ rest.map Face.index := by
        rcases List.mem_cons.mp hi with h | h
        · exact absurd h hif
        · exact h
      rw [ih fo (ro + 1) i (List.Nodup.of_cons hnd) hi']
      rw [List.indexOf_cons_ne _ (Ne.symm hif)]
      congr 1
      omega

lemma mem_similar_edges {sim : Q3 → Q3 → Bool} {vf : List Face}
    {edges : List (List ℕ)} {fo : ℕ} {a b : ℕ} :
    (a, b) ∈ similar_edges sim vf edges fo ↔
      ∃ fp ∈ edge_to_faces vf edges, sim fp.1.normal fp.2.normal = true ∧
        a = fp.1.index + fo ∧ b = fp.2.index + fo := by
  unfold similar_edges
  rw [List.mem_filterMap]
  constructor
  · rintro ⟨fp, hfp, hsome⟩
    by_cases hs : sim fp.1.normal fp.2.normal
    · rw [if_pos hs] at hsome
      injection hsome with h
      rw [Prod.mk.injEq] at h
      exact ⟨fp, hfp, hs, h.1.symm, h.2.symm⟩
    · rw [if_neg hs] at hsome
      exact Option.noConfusion hsome
  · rintro ⟨fp, hfp, hs, rfl, rfl⟩
    exact ⟨fp, hfp, by rw [if_pos hs]⟩

lemma edge_to_faces_mem {vf : List Face} {edges : List (List ℕ)}
    {fp : Face × Face} (h : fp ∈ edge_to_faces vf edges) :
    fp.1 ∈ vf ∧ fp.2 ∈ vf := by
  unfold edge_to_faces at h
  rw [List.mem_filterMap] at h
  obtain ⟨e, _, hsome⟩ := h
  rcases e with _ | ⟨i, e⟩
  · exact Option.noConfusion hsome
  rcases e with _ | ⟨j, e⟩
  · exact Option.noConfusion hsome
  rcases e with _ | ⟨k, e⟩
  · have hsome' : (match vf.find? (fun f => f.index == i),
        vf.find? (fun f => f.index == j) with
      | some f₁, some f₂ => some (f₁, f₂)
      | _, _ => none) = some fp := hsome
    rcases hf1 : vf.find? (fun f => f.index == i) with _ | f₁ <;>
      rcases hf2 : vf.find? (fun f => f.index == j) with _ | f₂ <;>
      rw [hf1, hf2] at hsome'
    · exact Option.noConfusion hsome'
    · exact Option.noConfusion hsome'
    · exact Option.noConfusion hsome'
    · have h := Option.some.inj hsome'
      rw [← h]
      exact ⟨List.mem_of_find?_eq_some hf1, List.mem_of_find?_eq_some hf2⟩
  · exact Option.noConfusion hsome

lemma connected_absorb_eq {Q : ℕ → ℕ → Prop} {x y : ℕ} :
    Connected (fun a b => a = b ∨ Q a b) x y ↔ Connected Q x y := by
  constructor
  · apply Connected.closure
    intro a b hab
    rcases hab with hab | hab
    · rw [hab]
      exact Connected.refl b
    · exact Connected.rel hab
  · apply Connected.closure
    intro a b hab
    exact Connected.rel (Or.inr hab)

lemma connected_image {Rel : ℕ → ℕ → Prop} {dom : List ℕ} {ρ : ℕ → ℕ}
    (hdom : ∀ a b, Rel a b → a ∈ dom ∧ b ∈ dom)
    (hinj : ∀ a ∈ dom, ∀ b ∈ dom, ρ a = ρ b → a = b)
    {a b : ℕ} (ha : a ∈ dom) (hb : b ∈ dom) :
    Connected (fun u v => ∃ i j, Rel i j ∧ u = ρ i ∧ v = ρ j) (ρ a) (ρ b)
      ↔ Connected Rel a b := by
  constructor
  · intro h
    have key : ∀ u v,
        Connected (fun u v => ∃ i j, Rel i j ∧ u = ρ i ∧ v = ρ j) u v →
        (u = v ∨ ∃ i, i ∈ dom ∧ ∃ j, j ∈ dom ∧ u = ρ i ∧ v = ρ j ∧
          Connected Rel i j) := by
      intro u v huv
      induction huv with
      | rel hr =>
        obtain ⟨i, j, hij, rfl, rfl⟩ := hr
        exact Or.inr ⟨i, (hdom _ _ hij).1, j, (hdom _ _ hij).2, rfl, rfl,
          Connected.rel hij⟩
      | refl x => exact Or.inl rfl
      | symm _ ih =>
        rcases ih with h | ⟨i, hi, j, hj, h1, h2, hc⟩
        · exact Or.inl h.symm
        · exact Or.inr ⟨j, hj, i, hi, h2, h1, Connected.symm hc⟩
      | trans _ _ ih₁ ih₂ =>
        rcases ih₁ with h1 | ⟨i, hi, j, hj, hu, hv, hc1⟩
        · rcases ih₂ with h2 | ⟨i', hi', j', hj', hv', hw, hc2⟩
          · exact Or.inl (h1.trans h2)
          · exact Or.inr ⟨i', hi', j', hj', h1.trans hv', hw, hc2⟩
        · rcases ih₂ with h2 | ⟨i', hi', j', hj', hv', hw, hc2⟩
          · exact Or.inr ⟨i, hi, j, hj, hu, h2 ▸ hv, hc1⟩
          · have hji' : j = i' := hinj j hj i' hi' (hv.symm.trans hv')
            exact Or.inr ⟨i, hi, j', hj', hu, hw,
              Connected.trans hc1 (hji' ▸ hc2)⟩
    rcases key _ _ h with h | ⟨i, hi, j, hj, h1, h2, hc⟩
    · rw [hinj a ha b hb h]
      exact Connected.refl b
    · have hia : i = a := hinj i hi a ha h1.symm
      have hjb : j = b := hinj j hj b hb h2.symm
      rw [← hia, ← hjb]
      exact hc
  · intro h
    clear ha hb
    induction h with
    | rel hr => exact Connected.rel ⟨_, _, hr, rfl, rfl⟩
    | refl x => exact Connected.refl _
    | symm _ ih => exact Connected.symm ih
    | trans _ _ ih₁ ih₂ => exact Connected.trans ih₁ ih₂

lemma segmentObject_char {sim : Q3 → Q3 → Bool} {vf : List Face}
    {edges : List (List ℕ)} {fo ro : ℕ}
    (hnd : (vf.map Face.index).Nodup) :
    (∀ f ∈ vf, ∃ c,
      regionOf (segmentObject sim vf edges fo ro) (f.index + fo) = some c) ∧
    (∀ f ∈ vf, ∀ g ∈ vf,
      (regionOf (segmentObject sim vf edges fo ro) (f.index + fo)
        = regionOf (segmentObject sim vf edges fo ro) (g.index + fo))
      ↔ Connected (fun a b => ∃ fp ∈ edge_to_faces vf edges,
          sim fp.1.normal fp.2.normal = true ∧ a = fp.1.index ∧ b = fp.2.index)
          f.index g.index) := by
  set F := vf.length + 1 with hF
  set rm0 := regionMap0 vf fo ro with hrm0
  set es := similar_edges sim vf edges fo with hes
  set uf1 := processEdges F uf0 rm0 es with huf1
  set D : Finset ℕ := Finset.Ico ro (ro + vf.length) with hD
  have hcard : D.card < F := by
    rw [hD, hF, Nat.card_Ico]
    omega
  have hmemD : ∀ i ∈ vf.map Face.index,
      ro + (vf.map Face.index).indexOf i ∈ D := by
    intro i hi
    rw [hD, Finset.mem_Ico]
    have hlt := List.indexOf_lt_length.mpr hi
    rw [List.length_map] at hlt
    omega
  have hlook : ∀ fc ∈ vf, rm0.lookup (fc.index + fo)
      = some (ro + (vf.map Face.index).indexOf fc.index) := by
    intro fc hfc
    rw [hrm0]
    exact regionMap0_lookup vf fo ro fc.index hnd (List.mem_map_of_mem _ hfc)
  have hfold : uf1 = (es.map (fun e =>
      ((rm0.lookup e.1).getD 0, (rm0.lookup e.2).getD 0))).foldl
      (fun u pr => unionOp F u pr.1 pr.2) uf0 := by
    rw [huf1, List.foldl_map]
    rfl
  have hprs : ∀ pr ∈ es.map (fun e =>
      ((rm0.lookup e.1).getD 0, (rm0.lookup e.2).getD 0)),
      pr.1 ∈ D ∧ pr.2 ∈ D := by
    intro pr hpr
    obtain ⟨e, he, rfl⟩ := List.mem_map.mp hpr
    have he' : (e.1, e.2) ∈ similar_edges sim vf edges fo := by
      rw [← hes]
      exact he
    obtain ⟨fp, hfp, hsimt, h1, h2⟩ := mem_similar_edges.mp he'
    have hmv := edge_to_faces_mem hfp
    constructor
    · show (rm0.lookup e.1).getD 0 ∈ D
      rw [h1, hlook fp.1 hmv.1]
      exact hmemD _ (List.mem_map_of_mem _ hmv.1)
    · show (rm0.lookup e.2).getD 0 ∈ D
      rw [h2, hlook fp.2 hmv.2]
      exact hmemD _ (List.mem_map_of_mem _ hmv.2)
  obtain ⟨hgood, hchar⟩ := foldUnion_spec _ uf0 (uf0_good hcard) hprs
  rw [← hfold] at hgood hchar
  have hinv : UFInv F D uf1.parent uf1.rank := hgood
  have hres : (resolveAux F rm0 uf1.parent).1
      = rm0.map (fun e => (e.1, rootAux F uf1.parent e.2)) :=
    resolveAux_spec rm0 uf1.parent hinv
  have hseg : segmentObject sim vf edges fo ro
      = compactAux (resolveAux F rm0 uf1.parent).1 [] ro := rfl
  have hvalue : ∀ fc ∈ vf,
      (compactAux (resolveAux F rm0 uf1.parent).1 [] ro).1.lookup (fc.index + fo)
        = some ((((compactAux (resolveAux F rm0 uf1.parent).1 [] ro).2.1).lookup
            (rootAux F uf1.parent
              (ro + (vf.map Face.index).indexOf fc.index))).getD 0) := by
    intro fc hfc
    have h2 := lookup_map_val (resolveAux F rm0 uf1.parent).1
      (fun r => (((compactAux (resolveAux F rm0 uf1.parent).1 [] ro).2.1).lookup
        r).getD 0)
      (fc.index + fo)
    have h3 : (compactAux (resolveAux F rm0 uf1.parent).1 [] ro).1.lookup
        (fc.index + fo)
        = Option.map
            (fun r => (((compactAux
              (resolveAux F rm0 uf1.parent).1 [] ro).2.1).lookup r).getD 0)
            ((resolveAux F rm0 uf1.parent).1.lookup (fc.index + fo)) := by
      conv_lhs => rw [compactAux_assignments (resolveAux F rm0 uf1.parent).1 [] ro]
      exact h2
    rw [h3, hres, lookup_map_val rm0 (rootAux F uf1.parent) (fc.index + fo),
      hlook fc hfc]
    rfl
  have hζ : ∀ fc ∈ vf,
      regionOf (segmentObject sim vf edges fo ro) (fc.index + fo)
        = some ((((compactAux (resolveAux F rm0 uf1.parent).1 [] ro).2.1).lookup
            (rootAux F uf1.parent
              (ro + (vf.map Face.index).indexOf fc.index))).getD 0) := by
    intro fc hfc
    show (segmentObject sim vf edges fo ro).1.lookup (fc.index + fo) = _
    rw [hseg]
    exact hvalue fc hfc
  have hchar' : ∀ x y,
      rootAux F uf1.parent x = rootAux F uf1.parent y ↔
      Connected (fun a b => (a, b) ∈ es.map (fun e =>
        ((rm0.lookup e.1).getD 0, (rm0.lookup e.2).getD 0))) x y := by
    intro x y
    have h1 : sameRoot F uf1.parent x y ↔
        Connected (fun a b => (a, b) ∈ es.map (fun e =>
          ((rm0.lookup e.1).getD 0, (rm0.lookup e.2).getD 0))) x y := by
      rw [hchar x y]
      exact Iff.trans
        (Connected.congr (fun a b => or_congr sameRoot_uf0 Iff.rfl))
        connected_absorb_eq
    exact h1
  refine ⟨?_, ?_⟩
  · intro fc hfc
    exact ⟨_, hζ fc hfc⟩
  · intro f hf g hg
    have hmemf : ((f.index + fo,
        rootAux F uf1.parent (ro + (vf.map Face.index).indexOf f.index)) : ℕ × ℕ)
        ∈ (resolveAux F rm0 uf1.parent).1 := by
      rw [hres]
      exact List.mem_map_of_mem _ (mem_of_lookup_eq_some (hlook f hf))
    have hmemg : ((g.index + fo,
        rootAux F uf1.parent (ro + (vf.map Face.index).indexOf g.index)) : ℕ × ℕ)
        ∈ (resolveAux F rm0 uf1.parent).1 := by
      rw [hres]
      exact List.mem_map_of_mem _ (mem_of_lookup_eq_some (hlook g hg))
    obtain ⟨cf, hcf0⟩ :=
      compactAux_lookup_dom (resolveAux F rm0 uf1.parent).1 [] ro _ hmemf
    obtain ⟨cg, hcg0⟩ :=
      compactAux_lookup_dom (resolveAux F rm0 uf1.parent).1 [] ro _ hmemg
    have hcf : ((compactAux (resolveAux F rm0 uf1.parent).1 [] ro).2.1).lookup
        (rootAux F uf1.parent (ro + (vf.map Face.index).indexOf f.index))
        = some cf := hcf0
    have hcg : ((compactAux (resolveAux F rm0 uf1.parent).1 [] ro).2.1).lookup
        (rootAux F uf1.parent (ro + (vf.map Face.index).indexOf g.index))
        = some cg := hcg0
    have hroots : cf = cg ↔
        rootAux F uf1.parent (ro + (vf.map Face.index).indexOf f.index)
          = rootAux F uf1.parent (ro + (vf.map Face.index).indexOf g.index) := by
      constructor
      · intro h
        apply compactAux_lookup_inj
          (show (([] : List (ℕ × ℕ)).map Prod.snd)
            = (List.range' ro (ro - ro)).reverse from by rw [Nat.sub_self]; rfl) le_rfl hcf
        rw [hcg, h]
      · intro h
        rw [h] at hcf
        exact Option.some.inj (hcf.symm.trans hcg)
    have hdom : ∀ a b, (∃ fp ∈ edge_to_faces vf edges,
        sim fp.1.normal fp.2.normal = true ∧ a = fp.1.index ∧ b = fp.2.index) →
        a ∈ vf.map Face.index ∧ b ∈ vf.map Face.index := by
      rintro a b ⟨fp, hfp, _, rfl, rfl⟩
      have hmv := edge_to_faces_mem hfp
      exact ⟨List.mem_map_of_mem _ hmv.1, List.mem_map_of_mem _ hmv.2⟩
    have hinj : ∀ a ∈ vf.map Face.index, ∀ b ∈ vf.map Face.index,
        ro + (vf.map Face.index).indexOf a = ro + (vf.map Face.index).indexOf b →
        a = b := by
      intro a ha b hb h
      have h' : (vf.map Face.index).indexOf a = (vf.map Face.index).indexOf b := by
        omega
      exact (List.indexOf_inj ha hb).mp h'
    have hpt : ∀ u v, (u, v) ∈ es.map (fun e =>
        ((rm0.lookup e.1).getD 0, (rm0.lookup e.2).getD 0)) ↔
        ∃ i j, (∃ fp ∈ edge_to_faces vf edges,
          sim fp.1.normal fp.2.normal = true ∧ i = fp.1.index ∧ j = fp.2.index) ∧
          u = ro + (vf.map Face.index).indexOf i ∧
          v = ro + (vf.map Face.index).indexOf j := by
      intro u v
      constructor
      · intro hm
        obtain ⟨e, he, heq⟩ := List.mem_map.mp hm
        have he' : (e.1, e.2) ∈ similar_edges sim vf edges fo := by
          rw [← hes]
          exact he
        obtain ⟨fp, hfp, hsimt, h1, h2⟩ := mem_similar_edges.mp he'
        have hmv := edge_to_faces_mem hfp
        have hu : (rm0.lookup e.1).getD 0 = u := congrArg Prod.fst heq
        have hv : (rm0.lookup e.2).getD 0 = v := congrArg Prod.snd heq
        refine ⟨fp.1.index, fp.2.index, ⟨fp, hfp, hsimt, rfl, rfl⟩, ?_, ?_⟩
        · rw [← hu, h1, hlook fp.1 hmv.1]
          rfl
        · rw [← hv, h2, hlook fp.2 hmv.2]
          rfl
      · rintro ⟨i, j, ⟨fp, hfp, hsimt, rfl, rfl⟩, rfl, rfl⟩
        have hmv := edge_to_faces_mem hfp
        have he : ((fp.1.index + fo, fp.2.index + fo) : ℕ × ℕ) ∈ es := by
          rw [hes]
          exact mem_similar_edges.mpr ⟨fp, hfp, hsimt, rfl, rfl⟩
        have hg1 : (rm0.lookup (fp.1.index + fo)).getD 0
            = ro + (vf.map Face.index).indexOf fp.1.index := by
          rw [hlook fp.1 hmv.1]
          rfl
        have hg2 : (rm0.lookup (fp.2.index + fo)).getD 0
            = ro + (vf.map Face.index).indexOf fp.2.index := by
          rw [hlook fp.2 hmv.2]
          rfl
        have hmm := List.mem_map_of_mem (fun e : ℕ × ℕ =>
          ((rm0.lookup e.1).getD 0, (rm0.lookup e.2).getD 0)) he
        rw [← hg1, ← hg2]
        exact hmm
    rw [hζ f hf, hζ g hg, Option.some.injEq, hcf, hcg]
    show cf = cg ↔ _
    rw [hroots, hchar' _ _, Connected.congr hpt]
    exact connected_image hdom hinj
      (List.mem_map_of_mem _ hf) (List.mem_map_of_mem _ hg)

/-- C2: after segmenting one object's valid faces with angle threshold θ
(the Boolean `sim` being exactly the angle test: arccos of the clamped dot
product of the flat normals at most θ), two valid faces are assigned the
same region id iff they are connected through a chain of face pairs, each
sharing an edge with exactly two valid linked faces and passing the angle
test — the regions are exactly the connected components of the
similar-normal adjacency graph. -/
theorem c2_regions_are_components (θ : ℝ) (sim : Q3 → Q3 → Bool)
    (hsim : ∀ n₁ n₂, sim n₁ n₂ = true ↔ similarNormals θ n₁ n₂)
    (vf : List Face) (edges : List (List ℕ)) (fo ro : ℕ)
    (hnd : (vf.map Face.index).Nodup) (f g : Face)
    (hf : f ∈ vf) (hg : g ∈ vf) :
    (regionOf (segmentObject sim vf edges fo ro) (f.index + fo)
      = regionOf (segmentObject sim vf edges fo ro) (g.index + fo))
    ↔ Connected (SimAdj θ vf edges) f.index g.index := by
  rw [(segmentObject_char hnd).2 f hf g hg]
  refine Connected.congr (fun a b => ?_)
  constructor
  · rintro ⟨fp, hfp, hs, rfl, rfl⟩
    exact ⟨fp, hfp, (hsim _ _).mp hs, rfl, rfl⟩
  · rintro ⟨fp, hfp, hs, rfl, rfl⟩
    exact ⟨fp, hfp, (hsim _ _).mpr hs, rfl, rfl⟩

/-- Witness for C2 at a concrete two-face object: threshold π, the
always-true angle test, two faces with equal normals joined by one edge. -/
theorem c2_regions_witness :
    (regionOf (segmentObject (fun _ _ => true)
        [⟨0, (0, 0, 1)⟩, ⟨1, (0, 0, 1)⟩] [[0, 1]] 0 0)
        ((⟨0, (0, 0, 1)⟩ : Face).index + 0)
      = regionOf (segmentObject (fun _ _ => true)
        [⟨0, (0, 0, 1)⟩, ⟨1, (0, 0, 1)⟩] [[0, 1]] 0 0)
        ((⟨1, (0, 0, 1)⟩ : Face).index + 0))
    ↔ Connected (SimAdj Real.pi [⟨0, (0, 0, 1)⟩, ⟨1, (0, 0, 1)⟩] [[0, 1]])
        (⟨0, (0, 0, 1)⟩ : Face).index (⟨1, (0, 0, 1)⟩ : Face).index :=
  c2_regions_are_components Real.pi (fun _ _ => true)
    (fun n₁ n₂ => ⟨fun _ => Real.arccos_le_pi _, fun _ => rfl⟩)
    [⟨0, (0, 0, 1)⟩, ⟨1, (0, 0, 1)⟩] [[0, 1]] 0 0 (by decide)
    ⟨0, (0, 0, 1)⟩ ⟨1, (0, 0, 1)⟩
    (List.mem_cons_self _ _) (List.mem_cons_of_mem _ (List.mem_cons_self _ _))

/-- C4: for the same faces and adjacency and thresholds θ₁ < θ₂, every
θ₁-region is contained in exactly one θ₂-region: there is exactly one
θ₂-region id receiving every face of the θ₁-region of `f`. -/
theorem c4_threshold_monotone (θ₁ θ₂ : ℝ) (sim₁ sim₂ : Q3 → Q3 → Bool)
    (hθ : θ₁ < θ₂)
    (hsim₁ : ∀ n₁ n₂, sim₁ n₁ n₂ = true ↔ similarNormals θ₁ n₁ n₂)
    (hsim₂ : ∀ n₁ n₂, sim₂ n₁ n₂ = true ↔ similarNormals θ₂ n₁ n₂)
    (vf : List Face) (edges : List (List ℕ)) (fo ro₁ ro₂ : ℕ)
    (hnd : (vf.map Face.index).Nodup) (f : Face) (hf : f ∈ vf) :
    ∃! c₂, ∀ g ∈ vf,
      regionOf (segmentObject sim₁ vf edges fo ro₁) (g.index + fo)
        = regionOf (segmentObject sim₁ vf edges fo ro₁) (f.index + fo) →
      regionOf (segmentObject sim₂ vf edges fo ro₂) (g.index + fo) = some c₂ := by
  obtain ⟨hex₂, hiff₂⟩ := @segmentObject_char sim₂ vf edges fo ro₂ hnd
  have hiff₁ := (@segmentObject_char sim₁ vf edges fo ro₁ hnd).2
  obtain ⟨c₂, hc₂⟩ := hex₂ f hf
  refine ⟨c₂, ?_, ?_⟩
  · intro g hg hsame
    have hconn₁ := (hiff₁ g hg f hf).mp hsame
    have hconn₂ : Connected (fun a b => ∃ fp ∈ edge_to_faces vf edges,
        sim₂ fp.1.normal fp.2.normal = true ∧ a = fp.1.index ∧ b = fp.2.index)
        g.index f.index := by
      refine Connected.closure ?_ hconn₁
      rintro a b ⟨fp, hfp, hs, rfl, rfl⟩
      refine Connected.rel ⟨fp, hfp, ?_, rfl, rfl⟩
      have h1 : Real.arccos ((clampedCos fp.1.normal fp.2.normal : ℚ) : ℝ) ≤ θ₁ :=
        (hsim₁ _ _).mp hs
      exact (hsim₂ _ _).mpr (le_trans h1 (le_of_lt hθ))
    rw [(hiff₂ g hg f hf).mpr hconn₂]
    exact hc₂
  · intro c' hc'
    have hval := hc' f hf rfl
    rw [hc₂] at hval
    exact (Option.some.inj hval).symm

/-- Witness for C4 at the concrete two-face object, thresholds π < π + 1
and the always-true angle tests, with distinct region-id offsets. -/
theorem c4_threshold_witness :
    ∃! c₂, ∀ g ∈ [(⟨0, (0, 0, 1)⟩ : Face), ⟨1, (0, 0, 1)⟩],
      regionOf (segmentObject (fun _ _ => true)
          [⟨0, (0, 0, 1)⟩, ⟨1, (0, 0, 1)⟩] [[0, 1]] 0 0) (g.index + 0)
        = regionOf (segmentObject (fun _ _ => true)
          [⟨0, (0, 0, 1)⟩, ⟨1, (0, 0, 1)⟩] [[0, 1]] 0 0)
          ((⟨0, (0, 0, 1)⟩ : Face).index + 0) →
      regionOf (segmentObject (fun _ _ => true)
          [⟨0, (0, 0, 1)⟩, ⟨1, (0, 0, 1)⟩] [[0, 1]] 0 5) (g.index + 0)
        = some c₂ :=
  c4_threshold_monotone Real.pi (Real.pi + 1) (fun _ _ => true) (fun _ _ => true)
    (lt_add_of_pos_right _ one_pos)
    (fun n₁ n₂ => ⟨fun _ => Real.arccos_le_pi _, fun _ => rfl⟩)
    (fun n₁ n₂ => ⟨fun _ =>
      le_trans (Real.arccos_le_pi _) (le_add_of_nonneg_right zero_le_one),
      fun _ => rfl⟩)
    [⟨0, (0, 0, 1)⟩, ⟨1, (0, 0, 1)⟩] [[0, 1]] 0 0 5 (by decide)
    ⟨0, (0, 0, 1)⟩ (List.mem_cons_self _ _)

/-- C5: the compact region ids assigned by a run form the consecutive
integer sequence starting at the initial region offset, continuing across
objects: each processed object's regions get the next consecutive ids, so
no two distinct regions, within one object or across objects, share an
id. -/
theorem c5_region_ids_dense (sim : Q3 → Q3 → Bool) :
    ∀ (objs : List MeshObj) (fo ro : ℕ),
      regionIdsAll sim objs fo ro
        = List.range' ro (regionIdsAll sim objs fo ro).length := by
  intro objs
  induction objs with
  | nil => intro fo ro; rfl
  | cons o rest ih =>
    intro fo ro
    by_cases ha : o.activeUV
    · have hshape : regionIdsAll sim (o :: rest) fo ro
          = ((segmentObject sim o.validFaces o.edges fo ro).2.1.map Prod.snd).reverse
            ++ regionIdsAll sim rest (fo + o.numFaces)
                (segmentObject sim o.validFaces o.edges fo ro).2.2 := by
        simp only [regionIdsAll, processObjects, if_pos ha, List.flatMap_cons]
      have hseg : segmentObject sim o.validFaces o.edges fo ro
          = compactAux (resolveAux (o.validFaces.length + 1)
              (regionMap0 o.validFaces fo ro)
              (processEdges (o.validFaces.length + 1) uf0
                (regionMap0 o.validFaces fo ro)
                (similar_edges sim o.validFaces o.edges fo)).parent).1 [] ro := rfl
      have hvals := compactAux_vals
        (resolveAux (o.validFaces.length + 1)
          (regionMap0 o.validFaces fo ro)
          (processEdges (o.validFaces.length + 1) uf0
            (regionMap0 o.validFaces fo ro)
            (similar_edges sim o.validFaces o.edges fo)).parent).1
        [] ro ro (by rw [Nat.sub_self]; rfl) le_rfl
      rw [← hseg] at hvals
      obtain ⟨hmap, hle, -⟩ := hvals
      rw [hshape, ih (fo + o.numFaces)
          (segmentObject sim o.validFaces o.edges fo ro).2.2,
        hmap, List.reverse_reverse, List.length_append, List.length_range',
        List.length_range']
      obtain ⟨n₁, hn₁⟩ : ∃ n₁, (segmentObject sim o.validFaces o.edges fo ro).2.2
          = ro + 1 * n₁ :=
        ⟨(segmentObject sim o.validFaces o.edges fo ro).2.2 - ro, by omega⟩
      rw [hn₁, show ro + 1 * n₁ - ro = n₁ from by omega, Nat.add_comm n₁]
      exact List.range'_append ro n₁ _ 1
    · have hshape : regionIdsAll sim (o :: rest) fo ro
          = regionIdsAll sim rest fo ro := by
        simp only [regionIdsAll, processObjects, if_neg ha]
      rw [hshape]
      exact ih fo ro

/-- C7 counterexample: an object with no UV channel triggers the automatic
unwrap and, once an active UV layer exists, is processed rather than
skipped — the run produces a region assignment for its face, so the
pipeline does generate and use UVs for a UV-less object. -/
theorem c7_missing_uv_not_skipped :
    unwrap_invoked ⟨false, true, 1, [⟨0, (0, 0, 1)⟩], []⟩ = true ∧
    object_skipped ⟨false, true, 1, [⟨0, (0, 0, 1)⟩], []⟩ = false ∧
    regionAssignmentsAll (fun _ _ => true)
      [⟨false, true, 1, [⟨0, (0, 0, 1)⟩], []⟩] 0 0 = [(0, 0)] := by
  refine ⟨rfl, rfl, ?_⟩
  rfl

/-- C7 amended: an object is skipped exactly when no active UV layer
exists even after the unwrap attempt, and a skipped object is transparent:
the remaining objects are processed exactly as if it were absent. -/
theorem c7_skipped_object_transparent (sim : Q3 → Q3 → Bool) (o : MeshObj)
    (ho : object_skipped o = true) (objs₁ objs₂ : List MeshObj) (fo ro : ℕ) :
    processObjects sim (objs₁ ++ o :: objs₂) fo ro
      = processObjects sim (objs₁ ++ objs₂) fo ro := by
  have ha : ¬ o.activeUV = true := by
    rw [object_skipped] at ho
    cases h : o.activeUV
    · exact Bool.false_ne_true
    · rw [h] at ho
      exact absurd ho (by decide)
  induction objs₁ generalizing fo ro with
  | nil =>
    simp only [List.nil_append, processObjects, if_neg ha]
  | cons p rest ih =>
    by_cases hp : p.activeUV
    · simp only [List.cons_append, processObjects, if_pos hp]
      exact congrArg (fun t => ((segmentObject sim p.validFaces p.edges fo ro).1,
        (List.map Prod.snd
          (segmentObject sim p.validFaces p.edges fo ro).2.1).reverse) :: t)
        (ih (fo + p.numFaces) (segmentObject sim p.validFaces p.edges fo ro).2.2)
    · simp only [List.cons_append, processObjects, if_neg hp]
      exact ih fo ro

/-- Witness for C7's amended theorem: a single skipped object (UV layers
present but no active UV layer) contributes nothing to the run. -/
theorem c7_skipped_witness :
    object_skipped (⟨true, false, 3, [], []⟩ : MeshObj) = true ∧
    processObjects (fun _ _ => true)
        ([] ++ (⟨true, false, 3, [], []⟩ : MeshObj) :: []) 0 0
      = processObjects (fun _ _ => true) ([] ++ []) 0 0 :=
  ⟨rfl, c7_skipped_object_transparent (fun _ _ => true)
    ⟨true, false, 3, [], []⟩ rfl [] [] 0 0⟩

lemma draw_frame {buf : ℤ → ℤ → Vec4} {x0 y0 x1 y1 : ℤ} {color : Vec4}
    {thickness R : ℤ} {rdata : ℤ → ℤ → ℤ} {rid : ℤ} {op : ℝ} {yy xx : ℤ}
    (h : rdata yy xx ≠ rid) :
    draw_brush_stroke_in_region buf x0 y0 x1 y1 color thickness R rdata rid
      op yy xx = buf yy xx := by
  by_contra hne
  rw [draw_brush_stroke_in_region] at hne
  exact h (strokeLoop_ne _ _ _ _ _ _ _ _ _ _ _ _ _ hne).1

lemma emitStroke_frame {sc : SceneData} {rid x y : ℤ} {nx ny nz : ℝ}
    {tc : ℝ × ℝ × ℝ} {angle : ℝ} {width len : ℤ} {j0 j1 j2 op : ℝ}
    {ps : PaintState} {newCtr : ℕ} {yy xx : ℤ} (h : sc.rdata yy xx ≠ rid) :
    (emitStroke sc rid x y nx ny nz tc angle width len j0 j1 j2 op ps
        newCtr).normalBuf yy xx = ps.normalBuf yy xx ∧
    (emitStroke sc rid x y nx ny nz tc angle width len j0 j1 j2 op ps
        newCtr).colorBuf yy xx = ps.colorBuf yy xx :=
  ⟨draw_frame h, draw_frame h⟩

lemma coverageCell_frame {sc : SceneData} {rng : Rng} {obj : ℕ} {rid : ℤ}
    {regionPixels : List (ℤ × ℤ)} {gridSize : ℤ}
    {st : PaintState × List (ℤ × ℤ)} {cell : ℤ × ℤ} {yy xx : ℤ}
    (h : sc.rdata yy xx ≠ rid) :
    (coverageCell sc rng obj rid regionPixels gridSize st cell).1.normalBuf
        yy xx = st.1.normalBuf yy xx ∧
    (coverageCell sc rng obj rid regionPixels gridSize st cell).1.colorBuf
        yy xx = st.1.colorBuf yy xx := by
  unfold coverageCell
  dsimp only
  split
  · exact ⟨rfl, rfl⟩
  · split
    · exact ⟨rfl, rfl⟩
    · split
      · exact ⟨rfl, rfl⟩
      · exact emitStroke_frame h

lemma accentStroke_frame {sc : SceneData} {rng : Rng} {obj : ℕ} {rid : ℤ}
    {regionPixels : List (ℤ × ℤ)} {ps : PaintState} {yy xx : ℤ}
    (h : sc.rdata yy xx ≠ rid) :
    (accentStroke sc rng obj rid regionPixels ps).normalBuf yy xx
      = ps.normalBuf yy xx ∧
    (accentStroke sc rng obj rid regionPixels ps).colorBuf yy xx
      = ps.colorBuf yy xx := by
  unfold accentStroke
  dsimp only
  split
  · exact ⟨rfl, rfl⟩
  · split
    · exact ⟨rfl, rfl⟩
    · exact emitStroke_frame h

lemma foldl_preserve {α β : Type} (P : α → Prop) (f : α → β → α)
    (hstep : ∀ a b, P a → P (f a b)) :
    ∀ (l : List β) (a : α), P a → P (l.foldl f a) := by
  intro l
  induction l with
  | nil => intro a h; exact h
  | cons b t ih => intro a h; exact ih (f a b) (hstep a b h)

lemma filter_filter_length_le {α : Type} (p q : α → Bool) :
    ∀ l : List α, ((l.filter q).filter p).length ≤ (l.filter p).length := by
  intro l
  induction l with
  | nil => exact le_rfl
  | cons a t ih =>
    rw [List.filter_cons, List.filter_cons]
    by_cases hq : q a
    · rw [if_pos hq, List.filter_cons]
      by_cases hp : p a
      · rw [if_pos hp, if_pos hp]
        simp only [List.length_cons]
        exact Nat.succ_le_succ ih
      · rw [if_neg hp, if_neg hp]
        exact ih
    · rw [if_neg hq]
      by_cases hp : p a
      · rw [if_pos hp]
        simp only [List.length_cons]
        exact le_trans ih (Nat.le_succ _)
      · rw [if_neg hp]
        exact ih

lemma processRegion_frame {sc : SceneData} {cfg : StrokeConfig} {rng : Rng}
    {obj : ℕ} {q : ℤ × ℤ → Bool} {r : ℤ} {yy xx : ℤ}
    (hcount : ((pixelGrid sc.R).filter
      (fun pr => sc.rdata pr.1 pr.2 = r)).length < 10)
    (hpx : sc.rdata yy xx = r) (ps : PaintState) (rid : ℤ) :
    (processRegion sc cfg rng obj ((pixelGrid sc.R).filter q) ps
        rid).normalBuf yy xx = ps.normalBuf yy xx ∧
    (processRegion sc cfg rng obj ((pixelGrid sc.R).filter q) ps
        rid).colorBuf yy xx = ps.colorBuf yy xx := by
  by_cases hr : rid = r
  · subst hr
    have h10 : ((((pixelGrid sc.R).filter q).filter
        (fun pr => sc.rdata pr.1 pr.2 = rid)).length) < 10 :=
      lt_of_le_of_lt (filter_filter_length_le _ q (pixelGrid sc.R)) hcount
    unfold processRegion
    dsimp only
    rw [if_pos h10]
    exact ⟨rfl, rfl⟩
  · have hne : sc.rdata yy xx ≠ rid := fun hc => hr (by rw [← hc, hpx])
    unfold processRegion
    dsimp only
    split
    · exact ⟨rfl, rfl⟩
    · exact foldl_preserve
        (fun p : PaintState => p.normalBuf yy xx = ps.normalBuf yy xx ∧
          p.colorBuf yy xx = ps.colorBuf yy xx) _
        (fun p n hp => ⟨(accentStroke_frame hne).1.trans hp.1,
                        (accentStroke_frame hne).2.trans hp.2⟩) _ _
        (foldl_preserve
          (fun st : PaintState × List (ℤ × ℤ) =>
            st.1.normalBuf yy xx = ps.normalBuf yy xx ∧
            st.1.colorBuf yy xx = ps.colorBuf yy xx) _
          (fun st cell hst => ⟨(coverageCell_frame hne).1.trans hst.1,
                               (coverageCell_frame hne).2.trans hst.2⟩) _
          (ps, []) ⟨rfl, rfl⟩)

lemma processObjectStrokes_frame {sc : SceneData} {cfg : StrokeConfig}
    {rng : Rng} {r : ℤ} {yy xx : ℤ}
    (hcount : ((pixelGrid sc.R).filter
      (fun pr => sc.rdata pr.1 pr.2 = r)).length < 10)
    (hpx : sc.rdata yy xx = r) (ps : PaintState) (obj : ℕ) :
    (processObjectStrokes sc cfg rng ps obj).normalBuf yy xx
      = ps.normalBuf yy xx ∧
    (processObjectStrokes sc cfg rng ps obj).colorBuf yy xx
      = ps.colorBuf yy xx := by
  unfold processObjectStrokes
  dsimp only
  split
  · exact ⟨rfl, rfl⟩
  · exact foldl_preserve
      (fun p : PaintState => p.normalBuf yy xx = ps.normalBuf yy xx ∧
        p.colorBuf yy xx = ps.colorBuf yy xx) _
      (fun p rid hp => ⟨(processRegion_frame hcount hpx p rid).1.trans hp.1,
                        (processRegion_frame hcount hpx p rid).2.trans hp.2⟩)
      _ ps ⟨rfl, rfl⟩

lemma strokePhase_frame {sc : SceneData} {cfg : StrokeConfig} {rng : Rng}
    {r : ℤ} {yy xx : ℤ}
    (hcount : ((pixelGrid sc.R).filter
      (fun pr => sc.rdata pr.1 pr.2 = r)).length < 10)
    (hpx : sc.rdata yy xx = r) (numObjects : ℕ) (ps0 : PaintState) :
    (strokePhase sc cfg rng numObjects ps0).normalBuf yy xx
      = ps0.normalBuf yy xx ∧
    (strokePhase sc cfg rng numObjects ps0).colorBuf yy xx
      = ps0.colorBuf yy xx := by
  unfold strokePhase
  exact foldl_preserve
    (fun p : PaintState => p.normalBuf yy xx = ps0.normalBuf yy xx ∧
      p.colorBuf yy xx = ps0.colorBuf yy xx) _
    (fun p obj hp => ⟨(processObjectStrokes_frame hcount hpx p obj).1.trans hp.1,
                      (processObjectStrokes_frame hcount hpx p obj).2.trans hp.2⟩)
    _ ps0 ⟨rfl, rfl⟩

/-- C10: a region with fewer than ten pixels gets no coverage or accent
strokes — the planner skips it — so every one of its pixels still holds the
initialization value of both output buffers after the whole stroke phase. -/
theorem c10_small_region_untouched (sc : SceneData) (cfg : StrokeConfig)
    (rng : Rng) (numObjects : ℕ) (r : ℤ) (yy xx : ℤ)
    (hcount : ((pixelGrid sc.R).filter
      (fun pr => sc.rdata pr.1 pr.2 = r)).length < 10)
    (hpx : sc.rdata yy xx = r) :
    (strokePhase sc cfg rng numObjects
        ⟨normalArrayInit, colorArrayInit, 0⟩).normalBuf yy xx
      = normalArrayInit yy xx ∧
    (strokePhase sc cfg rng numObjects
        ⟨normalArrayInit, colorArrayInit, 0⟩).colorBuf yy xx
      = colorArrayInit yy xx :=
  strokePhase_frame hcount hpx numObjects ⟨normalArrayInit, colorArrayInit, 0⟩

/-- Witness for C10: in the concrete scene, region 5 holds a single pixel
(fewer than ten), and after a full two-object stroke phase the origin pixel
still holds both initialization values. -/
theorem c10_small_region_witness :
    ((pixelGrid sceneW.R).filter
        (fun pr => sceneW.rdata pr.1 pr.2 = 5)).length < 10 ∧
    sceneW.rdata 0 0 = 5 ∧
    ((strokePhase sceneW ⟨1, 2, 3, 4⟩ ⟨fun _ => 0, fun _ => 1⟩ 2
        ⟨normalArrayInit, colorArrayInit, 0⟩).normalBuf 0 0
      = normalArrayInit 0 0 ∧
     (strokePhase sceneW ⟨1, 2, 3, 4⟩ ⟨fun _ => 0, fun _ => 1⟩ 2
        ⟨normalArrayInit, colorArrayInit, 0⟩).colorBuf 0 0
      = colorArrayInit 0 0) :=
  ⟨by decide, by decide, c10_small_region_untouched sceneW ⟨1, 2, 3, 4⟩
    ⟨fun _ => 0, fun _ => 1⟩ 2 5 0 0 (by decide) (by decide)⟩

end Painterly
